import Mathlib

/-! # String utilities of `common/StringUtil.cpp`

A shallow embedding of the C-string routines of `src/common/StringUtil.cpp`.

Conventions of the embedding.

* A byte (`char`) is a natural number, its character code.
* The memory reachable from a `char*` is a `List Nat`.  The C string stored there
  is the run of bytes before the first `0`; a list without a `0` byte stands for
  memory whose terminator comes right after the listed bytes, so reading past the
  end of a list yields `0`.
* A pointer value is an address, `0` being the null pointer (`CharPtr`).
* Writes are `List.set`; a buffer is large enough for a call when every index the
  call writes is below the length of the list, which the theorems assume.
-/

namespace StringUtil

/-! ## Bytes, C strings and the libc routines used by the source -/

/-- The bytes of a string literal, without terminator. -/
def lit (s : String) : List Nat := s.toList.map Char.toNat

/-- A `char*` value: the address held by the pointer (`0` for the null pointer) and
the bytes stored from that address on. -/
structure CharPtr where
  addr : Nat
  bytes : List Nat
deriving Repr, DecidableEq

/-- Read `p[i]`; memory past the listed bytes reads as the terminator. -/
def readByte (p : List Nat) (i : Nat) : Nat := p.getD i 0

/-- libc `strlen`: the number of bytes before the first `0`. -/
def strlen : List Nat → Nat
  | [] => 0
  | c :: cs => if c = 0 then 0 else strlen cs + 1

/-- The C string held in a buffer: the bytes before the first `0`. -/
def cstr : List Nat → List Nat
  | [] => []
  | c :: cs => if c = 0 then [] else c :: cstr cs

/-- libc `strncpy(dest, src, n)`: copies the bytes of `src` up to and including its
terminator, at most `n` of them, and fills what is left of the `n` bytes with `0`. -/
def strncpy : List Nat → List Nat → Nat → List Nat
  | dest, _, 0 => dest
  | [], _, _ + 1 => []
  | _ :: dest, [], n + 1 => 0 :: strncpy dest [] n
  | _ :: dest, c :: src, n + 1 =>
      if c = 0 then 0 :: strncpy dest [] n else c :: strncpy dest src n

/-! ## `strn0cpy` and `strn0cpyt` -/

/-- What `strn0cpy` leaves behind: the returned pointer and the bytes at `dest`. -/
structure Strn0cpyResult where
  ret : Nat
  dest : List Nat
deriving Repr, DecidableEq

/-- `char* strn0cpy(char* dest, const char* source, uint32 size)`. -/
def strn0cpy (dest source : CharPtr) (size : Nat) : Strn0cpyResult :=
  if dest.addr = 0 then
    { ret := 0, dest := dest.bytes }
  else if size = 0 ∨ source.addr = 0 then
    { ret := dest.addr, dest := dest.bytes.set 0 0 }
  else
    let d := strncpy dest.bytes source.bytes size
    { ret := dest.addr, dest := d.set (size - 1) 0 }

/-- What `strn0cpyt` leaves behind: the returned flag and the bytes at `dest`. -/
structure Strn0cpytResult where
  ret : Bool
  dest : List Nat
deriving Repr, DecidableEq

/-- `bool strn0cpyt(char* dest, const char* source, uint32 size)`. -/
def strn0cpyt (dest source : CharPtr) (size : Nat) : Strn0cpytResult :=
  if dest.addr = 0 then
    { ret := false, dest := dest.bytes }
  else if size = 0 ∨ source.addr = 0 then
    { ret := false, dest := dest.bytes.set 0 0 }
  else
    let d := (strncpy dest.bytes source.bytes size).set (size - 1) 0
    { ret := decide (readByte source.bytes (strlen d) = 0), dest := d }

/-! ## `hextoi` and `hextoi64` -/

/-- Conversion to a 32-bit `int`: the representative of `x` modulo `2^32` in
`[-2^31, 2^31)`.  Used for `int len = strlen(num)` and for the wrap-around of the
`int` multiplier and of the `int` products. -/
def toInt32 (x : Int) : Int := (x + 2147483648) % 4294967296 - 2147483648

/-- Conversion to `uint32`: the value modulo `2^32`. -/
def toUInt32 (x : Int) : Nat := (x % 4294967296).toNat

/-- Conversion to `uint64`: the value modulo `2^64`. -/
def toUInt64 (x : Int) : Nat := (x % 18446744073709551616).toNat

/-- The `for (int i = len-1; i >= 2; i--)` loop of `hextoi`, by recursion on `i - 1`:
the call with first argument `n + 1` runs the body at index `i = n + 2`.  The `int`
product is wrapped to 32 bits and converted to `uint32` when added to `ret`. -/
def hextoiLoop (num : List Nat) : Nat → Nat → Int → Nat
  | 0, ret, _ => ret
  | n + 1, ret, mul =>
      let c : Int := readByte num (n + 2)
      if 65 ≤ c ∧ c ≤ 70 then            -- 'A' .. 'F'
        hextoiLoop num n (toUInt32 (ret + toInt32 ((c - 65 + 10) * mul))) (toInt32 (mul * 16))
      else if 97 ≤ c ∧ c ≤ 102 then      -- 'a' .. 'f'
        hextoiLoop num n (toUInt32 (ret + toInt32 ((c - 97 + 10) * mul))) (toInt32 (mul * 16))
      else if 48 ≤ c ∧ c ≤ 57 then       -- '0' .. '9'
        hextoiLoop num n (toUInt32 (ret + toInt32 ((c - 48) * mul))) (toInt32 (mul * 16))
      else 0

/-- `uint32 hextoi(char* num)`. -/
def hextoi (num : List Nat) : Nat :=
  let len : Int := toInt32 (strlen num)
  if len < 3 then 0
  else if readByte num 0 ≠ 48 ∨ (readByte num 1 ≠ 120 ∧ readByte num 1 ≠ 88) then 0
  else hextoiLoop num (len - 2).toNat 0 1

/-- The digit loop of `hextoi64`: the same `int` multiplier and `int` products as in
`hextoi`, converted to `uint64` when added to the 64-bit `ret`. -/
def hextoi64Loop (num : List Nat) : Nat → Nat → Int → Nat
  | 0, ret, _ => ret
  | n + 1, ret, mul =>
      let c : Int := readByte num (n + 2)
      if 65 ≤ c ∧ c ≤ 70 then
        hextoi64Loop num n (toUInt64 (ret + toInt32 ((c - 65 + 10) * mul))) (toInt32 (mul * 16))
      else if 97 ≤ c ∧ c ≤ 102 then
        hextoi64Loop num n (toUInt64 (ret + toInt32 ((c - 97 + 10) * mul))) (toInt32 (mul * 16))
      else if 48 ≤ c ∧ c ≤ 57 then
        hextoi64Loop num n (toUInt64 (ret + toInt32 ((c - 48) * mul))) (toInt32 (mul * 16))
      else 0

/-- `uint64 hextoi64(char* num)`. -/
def hextoi64 (num : List Nat) : Nat :=
  let len : Int := toInt32 (strlen num)
  if len < 3 then 0
  else if readByte num 0 ≠ 48 ∨ (readByte num 1 ≠ 120 ∧ readByte num 1 ≠ 88) then 0
  else hextoi64Loop num (len - 2).toNat 0 1

/-- A hexadecimal digit character: `0-9`, `a-f`, `A-F`. -/
def isHexDigit (c : Nat) : Bool :=
  (48 ≤ c ∧ c ≤ 57) ∨ (97 ≤ c ∧ c ≤ 102) ∨ (65 ≤ c ∧ c ≤ 70)

/-- The value of a hexadecimal digit character. -/
def hexDigitValue (c : Nat) : Nat :=
  if 65 ≤ c ∧ c ≤ 70 then c - 65 + 10
  else if 97 ≤ c ∧ c ≤ 102 then c - 97 + 10
  else c - 48

/-- The digits read as a base-16 number: the sum of `digit * 16^position`, position
`0` being the last character. -/
def hexValue : List Nat → Nat
  | [] => 0
  | c :: cs => hexDigitValue c * 16 ^ cs.length + hexValue cs

/-! ## `atobool` -/

/-- libc `tolower` in the C locale. -/
def tolower (c : Nat) : Nat := if 65 ≤ c ∧ c ≤ 90 then c + 32 else c

/-- libc `strcasecmp`: compares the two C strings byte by byte after `tolower` and
returns the difference of the first pair that differs, `0` when there is none. -/
def strcasecmp : List Nat → List Nat → Int
  | [], [] => 0
  | [], b :: _ => 0 - (tolower b : Int)
  | a :: _, [] => (tolower a : Int) - 0
  | a :: as, b :: bs =>
      if tolower a ≠ tolower b then (tolower a : Int) - (tolower b : Int)
      else if a = 0 then 0
      else strcasecmp as bs

/-- libc `isspace` in the C locale. -/
def isspace (c : Nat) : Bool := c = 32 ∨ (9 ≤ c ∧ c ≤ 13)

/-- libc `isdigit`. -/
def isdigit (c : Nat) : Bool := 48 ≤ c ∧ c ≤ 57

/-- Skip the leading white space of a string. -/
def skipSpace : List Nat → List Nat
  | [] => []
  | c :: cs => if isspace c then skipSpace cs else c :: cs

/-- The value of the longest run of decimal digits at the head of a string, on top
of an accumulator. -/
def atoiDigits : List Nat → Int → Int
  | [], acc => acc
  | c :: cs, acc => if isdigit c then atoiDigits cs (acc * 10 + ((c : Int) - 48)) else acc

/-- The integer at the head of a string: optional white space, an optional sign,
then the longest run of decimal digits; `0` when there is no digit. -/
def leadingInteger (s : List Nat) : Int :=
  match skipSpace s with
  | 45 :: cs => - atoiDigits cs 0      -- '-'
  | 43 :: cs => atoiDigits cs 0        -- '+'
  | cs => atoiDigits cs 0

/-- libc `atoi`.  The C standard leaves the result undefined when the integer does
not fit an `int`; what the library returns then is the parameter `outOfRange`. -/
def atoi (outOfRange : Int → Int) (s : List Nat) : Int :=
  let v := leadingInteger s
  if -2147483648 ≤ v ∧ v ≤ 2147483647 then v else outOfRange v

/-- `bool atobool(char* iBool)`. -/
def atobool (outOfRange : Int → Int) (iBool : List Nat) : Bool :=
  if strcasecmp iBool (lit "true") = 0 then true
  else if strcasecmp iBool (lit "false") = 0 then false
  else if strcasecmp iBool (lit "yes") = 0 then true
  else if strcasecmp iBool (lit "no") = 0 then false
  else if strcasecmp iBool (lit "on") = 0 then true
  else if strcasecmp iBool (lit "off") = 0 then false
  else if strcasecmp iBool (lit "enable") = 0 then true
  else if strcasecmp iBool (lit "disable") = 0 then false
  else if strcasecmp iBool (lit "enabled") = 0 then true
  else if strcasecmp iBool (lit "disabled") = 0 then false
  else if strcasecmp iBool (lit "y") = 0 then true
  else if strcasecmp iBool (lit "n") = 0 then false
  else if atoi outOfRange iBool ≠ 0 then true
  else false

/-- The words `atobool` answers `true` to. -/
def trueWords : List (List Nat) :=
  [lit "true", lit "yes", lit "on", lit "enable", lit "enabled", lit "y"]

/-- The words `atobool` answers `false` to. -/
def falseWords : List (List Nat) :=
  [lit "false", lit "no", lit "off", lit "disable", lit "disabled", lit "n"]

/-- Equality of two strings ignoring ASCII case. -/
def eqIgnoreCase (a b : List Nat) : Prop := a.map tolower = b.map tolower

instance (a b : List Nat) : Decidable (eqIgnoreCase a b) := by
  unfold eqIgnoreCase; infer_instance

/-- The token has an integer at its head: after the white space and an optional
sign comes a decimal digit. -/
def hasLeadingInteger (s : List Nat) : Bool :=
  match skipSpace s with
  | 45 :: c :: _ => isdigit c
  | 43 :: c :: _ => isdigit c
  | c :: _ => isdigit c
  | [] => false

/-! ## `CleanMobName` -/

/-- libc `isalpha` in the C locale, on ASCII bytes. -/
def isalpha (c : Nat) : Bool := (65 ≤ c ∧ c ≤ 90) ∨ (97 ≤ c ∧ c ≤ 122)

/-- The `for (i = j = 0; i < strlen(in); i++)` loop of `CleanMobName` from the state
`(i, j, out)`; it yields `j` and `out` at the exit of the loop, and `none` when the
fuel is used up before the exit. -/
def CleanMobNameLoop (inp : List Nat) : Nat → Nat → Nat → List Nat → Option (Nat × List Nat)
  | 0, _, _, _ => none
  | fuel + 1, i, j, out =>
      if i < strlen inp then
        if readByte inp i = 95 then                                   -- '_'
          CleanMobNameLoop inp fuel (i + 1) (j + 1) (out.set j 32)    -- ' '
        else if isalpha (readByte inp i) ∨ readByte inp i = 96 then   -- backtick
          CleanMobNameLoop inp fuel (i + 1) (j + 1) (out.set j (readByte inp i))
        else
          CleanMobNameLoop inp fuel (i + 1) j out
      else some (j, out)

/-- What `CleanMobName` leaves behind: the returned pointer and the bytes at `out`. -/
structure CleanMobNameResult where
  ret : Nat
  out : List Nat
deriving Repr, DecidableEq

/-- `char *CleanMobName(const char *in, char *out)`, with the fuel of its loop. -/
def CleanMobName (fuel : Nat) (inp : List Nat) (out : CharPtr) : Option CleanMobNameResult :=
  match CleanMobNameLoop inp fuel 0 0 out.bytes with
  | none => none
  | some (j, o) => some { ret := out.addr, out := o.set j 0 }

/-- The text `CleanMobName` is to produce: the characters that are alphabetic,
underscore or backtick, in order, each underscore replaced by a space. -/
def cleanedName (s : List Nat) : List Nat :=
  (s.filter (fun c => isalpha c || c == 95 || c == 96)).map (fun c => if c = 95 then 32 else c)

/-! ## `RemoveApostrophes` -/

/-- The loop of `RemoveApostrophes(std::string &s)` from index `i`; `none` when the
fuel is used up before the exit. -/
def RemoveApostrophesLoop : Nat → Nat → List Nat → Option (List Nat)
  | 0, _, _ => none
  | fuel + 1, i, s =>
      if i < s.length then
        RemoveApostrophesLoop fuel (i + 1) (if readByte s i = 39 then s.set i 95 else s)
      else some s

/-- `void RemoveApostrophes(std::string &s)`: the value of `s` after the call. -/
def RemoveApostrophes (fuel : Nat) (s : List Nat) : Option (List Nat) :=
  RemoveApostrophesLoop fuel 0 s

/-- `new char[n]`: `n` bytes of indeterminate content, which `fresh` supplies. -/
def newCharArray (n : Nat) (fresh : Nat → Nat) : List Nat := (List.range n).map fresh

/-- libc `strcpy(dest, src)`: copies the bytes of `src` up to and including its
terminator. -/
def strcpy : List Nat → List Nat → List Nat
  | [], _ => []
  | _ :: dest, [] => 0 :: dest
  | _ :: dest, c :: src => if c = 0 then 0 :: dest else c :: strcpy dest src

/-- The loop of `RemoveApostrophes(const char *s)` over `NewString` from index `i`,
its bound `strlen(NewString)` read again at every round. -/
def RemoveApostrophesCLoop : Nat → Nat → List Nat → Option (List Nat)
  | 0, _, _ => none
  | fuel + 1, i, NewString =>
      if i < strlen NewString then
        RemoveApostrophesCLoop fuel (i + 1)
          (if readByte NewString i = 39 then NewString.set i 95 else NewString)
      else some NewString

/-- What `RemoveApostrophes(const char *s)` leaves behind: the bytes at `s`, which
it only reads, and the buffer it returns. -/
structure RemoveApostrophesResult where
  s : List Nat
  NewString : List Nat
deriving Repr, DecidableEq

/-- `char *RemoveApostrophes(const char *s)`. -/
def RemoveApostrophesC (fuel : Nat) (s : List Nat) (fresh : Nat → Nat) :
    Option RemoveApostrophesResult :=
  let NewString := newCharArray (strlen s + 1) fresh
  let NewString := strcpy NewString s
  match RemoveApostrophesCLoop fuel 0 NewString with
  | none => none
  | some r => some { s := s, NewString := r }

/-! ## The formatting primitive -/

/-- What one call of `vsnprintf` does: the value it returns and the bytes it stores
from the start of the buffer it was given. -/
structure VsnprintfResult where
  ret : Int
  written : List Nat
deriving Repr, DecidableEq

/-- The formatting primitive as the callers see it: the outcome of the attempt
number `k` (counted from `0`) on a buffer of `n` bytes. -/
abbrev Formatter := Nat → Nat → VsnprintfResult

/-- A conforming `vsnprintf` whose formatted text is `F`: into a buffer of `n` bytes
it stores the first `min(|F|, n-1)` characters and a terminator (nothing when
`n = 0`), and it returns `|F|`. -/
def vsnprintfOf (F : List Nat) : Formatter :=
  fun _ n => { ret := F.length, written := if n = 0 then [] else F.take (n - 1) ++ [0] }

/-- Store `bytes` in `buf` from index `off` on, one `List.set` per byte. -/
def writeAt : List Nat → Nat → List Nat → List Nat
  | buf, _, [] => buf
  | buf, off, b :: bs => writeAt (buf.set off b) (off + 1) bs

/-- The effect on a buffer of a `vsnprintf` call with size `n` at offset `off`: it
stores at most `n` bytes. -/
def vsnprintfStore (buf : List Nat) (off n : Nat) (r : VsnprintfResult) : List Nat :=
  writeAt buf off (r.written.take n)

/-! ## `StringFormat` -/

/-- A `std::string`: its characters and its capacity. -/
structure StdString where
  data : List Nat
  capacity : Nat
deriving Repr, DecidableEq

/-- `std::string::resize(n)`: cut to `n` characters, or pad with `char()` up to `n`;
the capacity stays when `n` fits it, otherwise the library picks one (`grow n`) that
is at least `n`. -/
def StdString.resize (grow : Nat → Nat) (s : StdString) (n : Nat) : StdString :=
  { data := if n ≤ s.data.length then s.data.take n
            else s.data ++ List.replicate (n - s.data.length) 0,
    capacity := if n ≤ s.capacity then s.capacity else max n (grow n) }

/-- The two `std::runtime_error`s that `StringFormat` throws. -/
inductive FormatError where
  | negativeLength
  | retryMismatch
deriving Repr, DecidableEq

/-- How `StringFormat` ends: the value of `output`, and the error thrown if any. -/
structure StringFormatResult where
  output : StdString
  error : Option FormatError
deriving Repr, DecidableEq

/-- `void StringFormat(std::string& output, const char* format, ...)`, the
formatting of `format` with its arguments being `vsnprintf`; the `int` it returns is
`toInt32` of the formatter's value, and `size_t` has 64 bits. -/
def StringFormat (grow : Nat → Nat) (vsnprintf : Formatter) (output : StdString) :
    StringFormatResult :=
  let write_point := output.data.length
  let remaining := output.capacity - write_point
  let output := output.resize grow output.capacity
  let r1 := vsnprintf 0 remaining
  let output := { output with data := vsnprintfStore output.data write_point remaining r1 }
  let bytes_used := toInt32 r1.ret
  if bytes_used < 0 then
    { output := output, error := some FormatError.negativeLength }
  else if toUInt32 bytes_used < remaining then
    { output := output.resize grow (write_point + bytes_used.toNat), error := none }
  else
    let output := output.resize grow (write_point + bytes_used.toNat + 1)
    let remaining := toUInt64 (toInt32 (bytes_used + 1))
    let r2 := vsnprintf 1 remaining
    let output := { output with data := vsnprintfStore output.data write_point remaining r2 }
    let bytes_used := toInt32 r2.ret
    if toUInt32 (toInt32 (bytes_used + 1)) ≠ remaining then
      { output := output, error := some FormatError.retryMismatch }
    else
      { output := output.resize grow (write_point + bytes_used.toNat), error := none }

/-- The length the first formatting attempt of `StringFormat` returns. -/
def StringFormat.firstLength (vsnprintf : Formatter) (output : StdString) : Int :=
  toInt32 (vsnprintf 0 (output.capacity - output.data.length)).ret

/-- The length the retry of `StringFormat` returns, on the capacity the retry asks
for: the first returned length plus one. -/
def StringFormat.retryLength (vsnprintf : Formatter) (output : StdString) : Int :=
  toInt32 (vsnprintf 1 (StringFormat.firstLength vsnprintf output + 1).toNat).ret

/-! ## `MakeAnyLenString` -/

/-- How `MakeAnyLenString` ends: the buffer `*ret` points to, the returned `chars`,
the final `buf_len`, and the number of `vsnprintf` calls made. -/
structure MakeAnyLenStringResult where
  ret : Option (List Nat)
  chars : Int
  buf_len : Int
  attempts : Nat
deriving Repr, DecidableEq

/-- The `while (chars == -1 || chars >= buf_len)` loop of `MakeAnyLenString`; the
buffer of attempt `k` starts with the indeterminate content `fresh k`.  `none` when
the fuel is used up before the exit. -/
def MakeAnyLenStringLoop (vsnprintf : Formatter) (fresh : Nat → Nat → Nat) :
    Nat → Nat → Option (List Nat) → Int → Int → Option MakeAnyLenStringResult
  | 0, _, _, _, _ => none
  | fuel + 1, attempts, ret, buf_len, chars =>
      if chars = -1 ∨ chars ≥ buf_len then
        let buf_len := if chars = -1 then toInt32 (buf_len * 2) else toInt32 (chars + 1)
        let buf := newCharArray buf_len.toNat (fresh attempts)
        let r := vsnprintf attempts buf_len.toNat
        MakeAnyLenStringLoop vsnprintf fresh fuel (attempts + 1)
          (some (vsnprintfStore buf 0 buf_len.toNat r)) buf_len (toInt32 r.ret)
      else
        some { ret := ret, chars := chars, buf_len := buf_len, attempts := attempts }

/-- `int MakeAnyLenString(char** ret, const char* format, ...)`; `ret` is the buffer
`*ret` points to on entry, `none` for a null pointer. -/
def MakeAnyLenString (fuel : Nat) (vsnprintf : Formatter) (fresh : Nat → Nat → Nat)
    (ret : Option (List Nat)) : Option MakeAnyLenStringResult :=
  MakeAnyLenStringLoop vsnprintf fresh fuel 0 ret 128 (-1)

/-! ## `AppendAnyLenString` -/

/-- libc `memcpy(dest, src, n)`. -/
def memcpy (dest src : List Nat) (n : Nat) : List Nat := writeAt dest 0 (src.take n)

/-- How `AppendAnyLenString` ends: the buffer `*ret` points to, `*bufsize`,
`*strlen`, and the returned value. -/
structure AppendAnyLenStringResult where
  ret : Option (List Nat)
  bufsize : Nat
  strlen : Nat
  returned : Nat
deriving Repr, DecidableEq

/-- The step `if (oldret) { if (*strlen) memcpy(*ret, oldret, *strlen); ... }` of
`AppendAnyLenString`: the new buffer `buf` after the old content is copied forward. -/
def copyForward (buf : List Nat) (oldret : Option (List Nat)) (len : Nat) : List Nat :=
  match oldret with
  | some old => if len ≠ 0 then memcpy buf old len else buf
  | none => buf

/-- The `while (chars == -1 || chars >= (int32)(*bufsize-*strlen))` loop of
`AppendAnyLenString`, the `uint32` fields wrapping at `2^32`; the buffer of attempt
`k` starts with the indeterminate content `fresh k`.  `none` when the fuel is used up
before the exit. -/
def AppendAnyLenStringLoop (vsnprintf : Formatter) (fresh : Nat → Nat → Nat) :
    Nat → Nat → Option (List Nat) → Nat → Nat → Int → Option AppendAnyLenStringResult
  | 0, _, _, _, _, _ => none
  | fuel + 1, attempts, ret, bufsize, len, chars =>
      if chars = -1 ∨ chars ≥ toInt32 (toUInt32 ((bufsize : Int) - len)) then
        let bufsize :=
          if chars = -1 then toUInt32 ((bufsize : Int) + 256)
          else toUInt32 ((bufsize : Int) + toInt32 (chars + 25))
        let oldret := ret
        let buf := copyForward (newCharArray bufsize (fresh attempts)) oldret len
        let n := toUInt32 ((bufsize : Int) - len)
        let r := vsnprintf attempts n
        AppendAnyLenStringLoop vsnprintf fresh fuel (attempts + 1)
          (some (vsnprintfStore buf len n r)) bufsize len (toInt32 r.ret)
      else
        some { ret := ret, bufsize := bufsize,
               strlen := toUInt32 ((len : Int) + chars),
               returned := toUInt32 ((len : Int) + chars) }

/-- The statement `if (*bufsize == 0) *bufsize = 256;` at the entry of
`AppendAnyLenString`. -/
def entryBufsize (bufsize : Nat) : Nat := if bufsize = 0 then 256 else bufsize

/-- The statement `if (*ret == 0) *strlen = 0;` at the entry of
`AppendAnyLenString`. -/
def entryStrlen (ret : Option (List Nat)) (len : Nat) : Nat :=
  if ret.isNone then 0 else len

/-- `uint32 AppendAnyLenString(char** ret, uint32* bufsize, uint32* strlen,
const char* format, ...)`; `ret` is the buffer `*ret` points to on entry, `none` for
a null pointer. -/
def AppendAnyLenString (fuel : Nat) (vsnprintf : Formatter) (fresh : Nat → Nat → Nat)
    (ret : Option (List Nat)) (bufsize len : Nat) : Option AppendAnyLenStringResult :=
  AppendAnyLenStringLoop vsnprintf fresh fuel 0 ret (entryBufsize bufsize)
    (entryStrlen ret len) (-1)

/-! ## `MakeUpperString` and `MakeLowerString` -/

/-- libc `toupper` in the C locale. -/
def toupper (c : Nat) : Nat := if 97 ≤ c ∧ c ≤ 122 then c - 32 else c

/-- The store `*p = v` at index `i` of a buffer; `none` when the index is outside
the buffer. -/
def writeByte (buf : List Nat) (i v : Nat) : Option (List Nat) :=
  if i < buf.length then some (buf.set i v) else none

/-- The `while (*source)` loop of `MakeUpperString(source, target)` and the final
`*target = 0`, `source` being what is left to read and `t` the index `target` has
reached. -/
def MakeUpperStringLoop : List Nat → List Nat → Nat → Option (List Nat)
  | [], target, t => writeByte target t 0
  | c :: source, target, t =>
      if c = 0 then writeByte target t 0
      else
        match writeByte target t (toupper c) with
        | none => none
        | some target => MakeUpperStringLoop source target (t + 1)

/-- `void MakeUpperString(const char *source, char *target)`: the bytes at `target`
after the call, `none` when the call stores outside the buffer or through a null
pointer. -/
def MakeUpperString (source target : CharPtr) : Option (List Nat) :=
  if source.addr = 0 ∨ target.addr = 0 then
    if target.addr = 0 then none else writeByte target.bytes 0 0
  else MakeUpperStringLoop source.bytes target.bytes 0

/-- The loop of `MakeLowerString(source, target)` and the final `*target = 0`. -/
def MakeLowerStringLoop : List Nat → List Nat → Nat → Option (List Nat)
  | [], target, t => writeByte target t 0
  | c :: source, target, t =>
      if c = 0 then writeByte target t 0
      else
        match writeByte target t (tolower c) with
        | none => none
        | some target => MakeLowerStringLoop source target (t + 1)

/-- `void MakeLowerString(const char *source, char *target)`. -/
def MakeLowerString (source target : CharPtr) : Option (List Nat) :=
  if source.addr = 0 ∨ target.addr = 0 then
    if target.addr = 0 then none else writeByte target.bytes 0 0
  else MakeLowerStringLoop source.bytes target.bytes 0

/-- How a single-argument case conversion ends: the returned pointer and the content
of its `static char str[128]`, `none` when a store fell outside of it. -/
structure StaticCaseResult where
  ret : Nat
  str : Option (List Nat)
deriving Repr, DecidableEq

/-- `const char *MakeUpperString(const char *source)`; `strAddr` is the address of
its static buffer and `str` the content the buffer has on entry. -/
def MakeUpperStringStatic (strAddr : Nat) (str : List Nat) (source : CharPtr) :
    StaticCaseResult :=
  if source.addr = 0 then { ret := 0, str := some str }
  else { ret := strAddr, str := MakeUpperString source ⟨strAddr, str⟩ }

/-- `const char *MakeLowerString(const char *source)`. -/
def MakeLowerStringStatic (strAddr : Nat) (str : List Nat) (source : CharPtr) :
    StaticCaseResult :=
  if source.addr = 0 then { ret := 0, str := some str }
  else { ret := strAddr, str := MakeLowerString source ⟨strAddr, str⟩ }

/-- The replacement `RemoveApostrophes` is to make at each character: an apostrophe
becomes an underscore, any other character stays. -/
def replaceApostrophe (c : Nat) : Nat := if c = 39 then 95 else c

/-! # Theorems -/

/-! ## Sanity checks of the embedding on concrete inputs -/

example : lit "0x1A" = [48, 120, 49, 65] := by decide
example : (strn0cpy ⟨1, [7, 7, 7, 7, 7, 7]⟩ ⟨2, lit "hello" ++ [0, 9]⟩ 4).dest
    = lit "hel" ++ [0, 7, 7] := by decide
example : (strn0cpyt ⟨1, [7, 7, 7, 7, 7, 7]⟩ ⟨2, lit "hello" ++ [0, 9]⟩ 6).ret = true := by decide
example : (strn0cpyt ⟨1, [7, 7, 7, 7, 7, 7]⟩ ⟨2, lit "hello" ++ [0, 9]⟩ 5).ret = false := by decide
example : hextoi (lit "0x1A") = 26 := by decide
example : hextoi (lit "1A") = 0 := by decide
example : hextoi (lit "0xZZ") = 0 := by decide
example : hextoi (lit "0Xff") = 255 := by decide
example : atobool (fun _ => 0) (lit "YES") = true := by decide
example : atobool (fun _ => 0) (lit "Off") = false := by decide
example : atobool (fun _ => 0) (lit "42") = true := by decide
example : atobool (fun _ => 0) (lit "abc") = false := by decide
example : CleanMobName 20 (lit "Big_Bad_Orc#1") ⟨1, List.replicate 14 7⟩
    = some ⟨1, lit "Big Bad Orc" ++ [0, 7, 7]⟩ := by decide
example : RemoveApostrophes 8 (lit "O'Brien") = some (lit "O_Brien") := by decide
example : RemoveApostrophesC 8 (lit "O'Brien" ++ [0, 5]) (fun _ => 9)
    = some ⟨lit "O'Brien" ++ [0, 5], lit "O_Brien" ++ [0]⟩ := by decide

example : StringFormat (fun n => 2 * n) (vsnprintfOf (lit "5-x")) ⟨[], 0⟩
    = ⟨⟨lit "5-x", 8⟩, none⟩ := by decide
example : StringFormat (fun n => 2 * n) (vsnprintfOf (lit "5-x")) ⟨lit "ab", 15⟩
    = ⟨⟨lit "ab5-x", 15⟩, none⟩ := by decide
example : StringFormat (fun n => n) (fun _ _ => ⟨-1, []⟩) ⟨lit "ab", 4⟩
    = ⟨⟨lit "ab" ++ [0, 0], 4⟩, some FormatError.negativeLength⟩ := by decide
example : MakeUpperString ⟨1, lit "aB3z" ++ [0]⟩ ⟨2, [7, 7, 7, 7, 7, 7]⟩
    = some (lit "AB3Z" ++ [0, 7]) := by decide
example : MakeLowerString ⟨1, lit "aB3z" ++ [0]⟩ ⟨2, [7, 7, 7, 7]⟩ = none := by decide
example : (MakeAnyLenString 3 (vsnprintfOf (lit "hi")) (fun _ _ => 9) none).map
    (fun r => (r.chars, r.buf_len, r.attempts, r.ret.map (List.take 4)))
    = some (2, 256, 1, some (lit "hi" ++ [0, 9])) := by decide
example : (AppendAnyLenString 3 (vsnprintfOf (lit "hi")) (fun _ _ => 9)
      (some (lit "ab" ++ [0, 1])) 4 2).map
    (fun r => (r.strlen, r.bufsize, r.returned, r.ret.map (List.take 6)))
    = some (4, 260, 4, some (lit "abhi" ++ [0, 9])) := by decide

/-! ## Bounded copy -/

theorem strlen_eq_length_cstr (l : List Nat) : strlen l = (cstr l).length := by
  induction l with
  | nil => rfl
  | cons c cs ih => by_cases h : c = 0 <;> simp [strlen, cstr, h, ih]

theorem cstr_ne_zero (l : List Nat) : ∀ c ∈ cstr l, c ≠ 0 := by
  induction l with
  | nil => simp [cstr]
  | cons c cs ih =>
    by_cases h : c = 0
    · simp [cstr, h]
    · intro x hx
      simp only [cstr, h, if_false, List.mem_cons] at hx
      rcases hx with rfl | hx
      · exact h
      · exact ih x hx

theorem cstr_append_zero (p rest : List Nat) (hp : ∀ c ∈ p, c ≠ 0) :
    cstr (p ++ 0 :: rest) = p := by
  induction p with
  | nil => simp [cstr]
  | cons c cs ih =>
    have hc : c ≠ 0 := hp c (List.mem_cons_self _ _)
    have := ih (fun x hx => hp x (List.mem_cons_of_mem _ hx))
    simp [cstr, hc, this]

theorem cstr_of_ne_zero (p : List Nat) (hp : ∀ c ∈ p, c ≠ 0) : cstr p = p := by
  induction p with
  | nil => rfl
  | cons c cs ih =>
    have hc : c ≠ 0 := hp c (List.mem_cons_self _ _)
    have := ih (fun x hx => hp x (List.mem_cons_of_mem _ hx))
    simp [cstr, hc, this]

theorem readByte_strlen (l : List Nat) : readByte l (strlen l) = 0 := by
  induction l with
  | nil => rfl
  | cons c cs ih =>
    by_cases h : c = 0
    · simp [strlen, h, readByte]
    · simpa [strlen, h, readByte] using ih

theorem readByte_ne_zero_of_lt (l : List Nat) (i : Nat) (h : i < strlen l) :
    readByte l i ≠ 0 := by
  induction l generalizing i with
  | nil => simp [strlen] at h
  | cons c cs ih =>
    by_cases hc : c = 0
    · simp [strlen, hc] at h
    · cases i with
      | zero => simpa [readByte] using hc
      | succ i =>
        simp only [strlen, hc, if_false, Nat.add_lt_add_iff_right] at h
        simpa [readByte] using ih i h

theorem getElem?_cstr (l : List Nat) (i : Nat) (h : i < strlen l) :
    (cstr l)[i]? = some (readByte l i) := by
  induction l generalizing i with
  | nil => simp [strlen] at h
  | cons c cs ih =>
    by_cases hc : c = 0
    · simp [strlen, hc] at h
    · cases i with
      | zero => simp [cstr, hc, readByte]
      | succ i =>
        simp only [strlen, hc, if_false, Nat.add_lt_add_iff_right] at h
        simpa [cstr, hc, readByte] using ih i h

theorem drop_cstr (l : List Nat) (i : Nat) (h : i < strlen l) :
    (cstr l).drop i = readByte l i :: (cstr l).drop (i + 1) := by
  have h1 := getElem?_cstr l i h
  have hlt : i < (cstr l).length := by rw [← strlen_eq_length_cstr]; exact h
  rw [List.getElem?_eq_getElem hlt] at h1
  rw [List.drop_eq_getElem_cons hlt]
  simp only [Option.some.injEq] at h1
  rw [h1]

theorem strncpy_length (dest src : List Nat) (n : Nat) :
    (strncpy dest src n).length = dest.length := by
  induction n generalizing dest src with
  | zero => cases dest <;> simp [strncpy]
  | succ n ih =>
    cases dest with
    | nil => simp [strncpy]
    | cons d ds =>
      cases src with
      | nil => simp [strncpy, ih]
      | cons c cs => by_cases h : c = 0 <;> simp [strncpy, h, ih]

theorem strncpy_getElem?_of_le (dest src : List Nat) (n i : Nat) (h : n ≤ i) :
    (strncpy dest src n)[i]? = dest[i]? := by
  induction n generalizing dest src i with
  | zero => cases dest <;> simp [strncpy]
  | succ n ih =>
    cases dest with
    | nil => simp [strncpy]
    | cons d ds =>
      obtain ⟨k, rfl⟩ : ∃ k, i = k + 1 := ⟨i - 1, by omega⟩
      have hk : n ≤ k := by omega
      cases src with
      | nil => simp [strncpy, ih _ _ _ hk]
      | cons c cs => by_cases hc : c = 0 <;> simp [strncpy, hc, ih _ _ _ hk]

theorem cstr_strncpy_set (dest src : List Nat) (n : Nat) (h : n < dest.length) :
    cstr ((strncpy dest src (n + 1)).set n 0) = (cstr src).take n := by
  induction n generalizing dest src with
  | zero =>
    cases dest with
    | nil => simp at h
    | cons d ds =>
      cases src with
      | nil => simp [strncpy, cstr]
      | cons c cs => by_cases hc : c = 0 <;> simp [strncpy, hc, cstr]
  | succ n ih =>
    cases dest with
    | nil => simp at h
    | cons d ds =>
      have h2 : n < ds.length := by simpa using h
      cases src with
      | nil => simp [strncpy, cstr]
      | cons c cs =>
        by_cases hc : c = 0
        · simp [strncpy, hc, cstr]
        · simp [strncpy, hc, cstr, ih ds cs h2]

theorem cstr_eq_take (l : List Nat) : cstr l = l.take (strlen l) := by
  induction l with
  | nil => rfl
  | cons c cs ih => by_cases h : c = 0 <;> simp [strlen, cstr, h, ih]

theorem take_cstr (src : List Nat) (n : Nat) :
    (cstr src).take n = src.take (min (strlen src) n) := by
  rw [cstr_eq_take, List.take_take, Nat.min_comm]

/-- C1. For a non-null `dest` with room for `size` bytes, a non-null source and
`size ≥ 1`, `strn0cpy` changes no byte of `dest` at an index `≥ size` (nor the extent
of the buffer), leaves `dest[size-1] = 0`, leaves in `dest` the C string made of the
first `min(strlen(source), size-1)` bytes of the source, and returns `dest`. -/
theorem strn0cpy_spec (dest source : CharPtr) (size : Nat)
    (hdest : dest.addr ≠ 0) (hsource : source.addr ≠ 0)
    (hsize : 1 ≤ size) (hroom : size ≤ dest.bytes.length) :
    (strn0cpy dest source size).dest.length = dest.bytes.length ∧
    (∀ i, size ≤ i → (strn0cpy dest source size).dest[i]? = dest.bytes[i]?) ∧
    (strn0cpy dest source size).dest[size - 1]? = some 0 ∧
    cstr (strn0cpy dest source size).dest
      = source.bytes.take (min (strlen source.bytes) (size - 1)) ∧
    (strn0cpy dest source size).ret = dest.addr := by
  have hs0 : size ≠ 0 := by omega
  have hdef : strn0cpy dest source size
      = { ret := dest.addr,
          dest := (strncpy dest.bytes source.bytes size).set (size - 1) 0 } := by
    simp [strn0cpy, hdest, hsource, hs0]
  rw [hdef]
  refine ⟨?_, ?_, ?_, ?_, rfl⟩
  · simp [strncpy_length]
  · intro i hi
    have hne : size - 1 ≠ i := by omega
    simp only [List.getElem?_set_ne hne]
    exact strncpy_getElem?_of_le _ _ _ _ hi
  · have hlt : size - 1 < (strncpy dest.bytes source.bytes size).length := by
      rw [strncpy_length]; omega
    simp [List.getElem?_set_self, hlt]
  · obtain ⟨n, rfl⟩ : ∃ n, size = n + 1 := ⟨size - 1, by omega⟩
    simp only [Nat.add_sub_cancel]
    rw [cstr_strncpy_set _ _ _ (by omega), take_cstr]

/-- Witness of `strn0cpy_spec`: copying "hello" into a 6-byte buffer with size 4. -/
theorem strn0cpy_spec_witness :
    ((1 : Nat) ≠ 0 ∧ (2 : Nat) ≠ 0 ∧ 1 ≤ 4 ∧ 4 ≤ [7, 7, 7, 7, 7, 7].length) ∧
    (strn0cpy ⟨1, [7, 7, 7, 7, 7, 7]⟩ ⟨2, lit "hello" ++ [0, 9]⟩ 4).dest[3]? = some 0 ∧
    cstr (strn0cpy ⟨1, [7, 7, 7, 7, 7, 7]⟩ ⟨2, lit "hello" ++ [0, 9]⟩ 4).dest = lit "hel" ∧
    (strn0cpy ⟨1, [7, 7, 7, 7, 7, 7]⟩ ⟨2, lit "hello" ++ [0, 9]⟩ 4).ret = 1 :=
  have h := strn0cpy_spec ⟨1, [7, 7, 7, 7, 7, 7]⟩ ⟨2, lit "hello" ++ [0, 9]⟩ 4
    (by decide) (by decide) (by decide) (by decide)
  ⟨by decide, h.2.2.1, h.2.2.2.1.trans (by decide), h.2.2.2.2⟩

/-- C2. For a non-null `dest` with room for `size` bytes, a non-null source and every
`size`, zero included, `strn0cpyt` returns `true` exactly when
`strlen(source) < size`. -/
theorem strn0cpyt_true_iff (dest source : CharPtr) (size : Nat)
    (hdest : dest.addr ≠ 0) (hsource : source.addr ≠ 0)
    (hroom : size ≤ dest.bytes.length) :
    (strn0cpyt dest source size).ret = true ↔ strlen source.bytes < size := by
  cases size with
  | zero => simp [strn0cpyt, hdest]
  | succ n =>
    have hlen : strlen ((strncpy dest.bytes source.bytes (n + 1)).set n 0)
        = min n (strlen source.bytes) := by
      rw [strlen_eq_length_cstr, cstr_strncpy_set _ _ _ (by omega), List.length_take,
        ← strlen_eq_length_cstr]
    simp only [strn0cpyt, hdest, hsource, if_false, Nat.add_sub_cancel, or_self,
      Nat.add_one_ne_zero, hlen, decide_eq_true_eq]
    rcases Nat.lt_or_ge n (strlen source.bytes) with h | h
    · rw [Nat.min_eq_left (Nat.le_of_lt h)]
      have := readByte_ne_zero_of_lt _ _ h
      constructor
      · intro h0; exact absurd h0 this
      · intro h1; omega
    · rw [Nat.min_eq_right h]
      constructor
      · intro _; omega
      · intro _; exact readByte_strlen _

/-- Witness of `strn0cpyt_true_iff`: "hello" fits a size of 6 and not a size of 5. -/
theorem strn0cpyt_true_iff_witness :
    ((1 : Nat) ≠ 0 ∧ (2 : Nat) ≠ 0 ∧ 6 ≤ [7, 7, 7, 7, 7, 7].length) ∧
    ((strn0cpyt ⟨1, [7, 7, 7, 7, 7, 7]⟩ ⟨2, lit "hello" ++ [0, 9]⟩ 6).ret = true ↔
      strlen (lit "hello" ++ [0, 9]) < 6) :=
  ⟨by decide, strn0cpyt_true_iff ⟨1, [7, 7, 7, 7, 7, 7]⟩ ⟨2, lit "hello" ++ [0, 9]⟩ 6
    (by decide) (by decide) (by decide)⟩

/-! ## Hexadecimal parsing -/

theorem toUInt32_modEq (x : Int) : (toUInt32 x : Int) ≡ x [ZMOD 4294967296] := by
  unfold toUInt32
  rw [Int.toNat_of_nonneg (Int.emod_nonneg _ (by norm_num))]
  exact Int.mod_modEq _ _

theorem toUInt32_lt (x : Int) : toUInt32 x < 4294967296 := by
  unfold toUInt32
  omega

theorem toInt32_modEq (x : Int) : toInt32 x ≡ x [ZMOD 4294967296] := by
  unfold toInt32 Int.ModEq
  omega

theorem toInt32_of_small (x : Int) (h0 : 0 ≤ x) (h1 : x < 2147483648) : toInt32 x = x := by
  unfold toInt32
  omega

theorem isHexDigit_ne_zero (c : Nat) (h : isHexDigit c = true) : c ≠ 0 := by
  simp [isHexDigit] at h
  omega

theorem hexDigitValue_le (c : Nat) (h : isHexDigit c = true) : hexDigitValue c ≤ 15 := by
  simp [isHexDigit] at h
  unfold hexDigitValue
  split_ifs <;> omega

theorem hexValue_append_singleton (l : List Nat) (c : Nat) :
    hexValue (l ++ [c]) = 16 * hexValue l + hexDigitValue c := by
  induction l with
  | nil => simp [hexValue]
  | cons a l ih =>
    have hl : (l ++ [c]).length = l.length + 1 := by simp
    rw [List.cons_append, hexValue, hexValue, ih, hl, pow_succ]
    ring

theorem hexValue_lt (ds : List Nat) (hd : ∀ c ∈ ds, isHexDigit c = true) :
    hexValue ds < 16 ^ ds.length := by
  induction ds with
  | nil => simp [hexValue]
  | cons c cs ih =>
    have h1 := hexDigitValue_le c (hd c (List.mem_cons_self _ _))
    have h2 := ih (fun x hx => hd x (List.mem_cons_of_mem _ hx))
    simp only [hexValue, List.length_cons, pow_succ]
    nlinarith

theorem strlen_of_ne_zero (l : List Nat) (h : ∀ c ∈ l, c ≠ 0) : strlen l = l.length := by
  rw [strlen_eq_length_cstr, cstr_of_ne_zero l h]

theorem take_succ_eq_append_readByte (l : List Nat) (n : Nat) (h : n < l.length) :
    l.take (n + 1) = l.take n ++ [readByte l n] := by
  rw [List.take_succ, List.getElem?_eq_getElem h]
  simp [readByte, List.getD_eq_getElem?_getD, List.getElem?_eq_getElem h]

/-- The digit loop of `hextoi` over valid digits `ds` stored from index 2 on: its
result is below `2^32` and congruent modulo `2^32` to `ret + mul * value of the
digits read`. -/
theorem hextoiLoop_spec (num ds : List Nat)
    (hrd : ∀ j, j < ds.length → readByte num (j + 2) = readByte ds j)
    (hd : ∀ c ∈ ds, isHexDigit c = true)
    (n : Nat) (hn : n ≤ ds.length) (ret : Nat) (mul : Int) (hret : ret < 4294967296) :
    (hextoiLoop num n ret mul : Int)
        ≡ ret + mul * hexValue (ds.take n) [ZMOD 4294967296] ∧
      hextoiLoop num n ret mul < 4294967296 := by
  induction n generalizing ret mul with
  | zero => simp [hextoiLoop, hexValue, hret, Int.ModEq]
  | succ n ih =>
    have hlt : n < ds.length := by omega
    have hrd : readByte num (n + 2) = readByte ds n := hrd n hlt
    have hmem : readByte ds n ∈ ds := by
      simp only [readByte, List.getD_eq_getElem _ _ hlt]
      exact List.getElem_mem _
    have hhex := hd _ hmem
    have hval := take_succ_eq_append_readByte ds n hlt
    rw [hval, hexValue_append_singleton]
    generalize readByte ds n = c at hrd hhex
    have key : ∀ d : Int, d = (hexDigitValue c : Int) →
        (hextoiLoop num n (toUInt32 (ret + toInt32 (d * mul))) (toInt32 (mul * 16))
            : Int) ≡ ret + mul * ((16 * hexValue (ds.take n) + hexDigitValue c : Nat) : Int)
              [ZMOD 4294967296] ∧
          hextoiLoop num n (toUInt32 (ret + toInt32 (d * mul)))
            (toInt32 (mul * 16)) < 4294967296 := by
      intro d hdv
      obtain ⟨h1, h2⟩ := ih (by omega) (toUInt32 (ret + toInt32 (d * mul))) (toInt32 (mul * 16))
        (toUInt32_lt _)
      refine ⟨?_, h2⟩
      refine h1.trans ?_
      have e1 : (toUInt32 (ret + toInt32 (d * mul)) : Int) ≡ ret + d * mul [ZMOD 4294967296] :=
        (toUInt32_modEq _).trans (Int.ModEq.add_left _ (toInt32_modEq _))
      have e2 : toInt32 (mul * 16) * (hexValue (ds.take n) : Int)
          ≡ mul * 16 * hexValue (ds.take n) [ZMOD 4294967296] :=
        Int.ModEq.mul_right _ (toInt32_modEq _)
      have e3 := Int.ModEq.add e1 e2
      refine e3.trans ?_
      rw [hdv]
      push_cast
      have : (ret : Int) + hexDigitValue c * mul + mul * 16 * hexValue (ds.take n)
          = ret + mul * (16 * hexValue (ds.take n) + hexDigitValue c) := by ring
      rw [this]
    simp only [isHexDigit, Bool.or_eq_true, Bool.and_eq_true, decide_eq_true_eq] at hhex
    simp only [hextoiLoop, hrd]
    by_cases hA : 65 ≤ c ∧ c ≤ 70
    · have hA2 : (65 : Int) ≤ (c : Int) ∧ (c : Int) ≤ 70 := by omega
      rw [if_pos hA2]
      apply key
      simp only [hexDigitValue, hA, and_self, if_true]
      omega
    · have hA2 : ¬ ((65 : Int) ≤ (c : Int) ∧ (c : Int) ≤ 70) := by omega
      rw [if_neg hA2]
      by_cases ha : 97 ≤ c ∧ c ≤ 102
      · have ha2 : (97 : Int) ≤ (c : Int) ∧ (c : Int) ≤ 102 := by omega
        rw [if_pos ha2]
        apply key
        simp only [hexDigitValue, hA, ha, and_self, if_true, if_false]
        omega
      · have ha2 : ¬ ((97 : Int) ≤ (c : Int) ∧ (c : Int) ≤ 102) := by omega
        have h0 : (48 : Int) ≤ (c : Int) ∧ (c : Int) ≤ 57 := by omega
        rw [if_neg ha2, if_pos h0]
        apply key
        simp only [hexDigitValue, hA, ha, if_false]
        omega

/-- C3. On a C string made of the prefix "0x" or "0X" followed by 1 to 8 hexadecimal
digits, `hextoi` returns the value of the digits read as a base-16 number (the `int`
multiplier and products wrapping at 32 bits). -/
theorem hextoi_value (num : List Nat) (p1 : Nat) (ds : List Nat)
    (hstr : cstr num = 48 :: p1 :: ds) (hp : p1 = 120 ∨ p1 = 88)
    (hlen1 : 1 ≤ ds.length) (hlen8 : ds.length ≤ 8)
    (hd : ∀ c ∈ ds, isHexDigit c = true) :
    hextoi num = hexValue ds := by
  have hlen : strlen num = ds.length + 2 := by
    rw [strlen_eq_length_cstr, hstr]; simp
  have hget : ∀ i, i < ds.length + 2 → (48 :: p1 :: ds)[i]? = some (readByte num i) := by
    intro i hi
    rw [← hstr]
    exact getElem?_cstr num i (by omega)
  have hr0 : readByte num 0 = 48 := by
    have := hget 0 (by omega)
    simpa using this.symm
  have hr1 : readByte num 1 = p1 := by
    have := hget 1 (by omega)
    simpa using this.symm
  have hrd : ∀ j, j < ds.length → readByte num (j + 2) = readByte ds j := by
    intro j hj
    have := hget (j + 2) (by omega)
    simp only [List.getElem?_cons_succ] at this
    simp [readByte, List.getD_eq_getElem?_getD, this]
  have hint : toInt32 ((strlen num : Nat) : Int) = (ds.length : Int) + 2 := by
    rw [hlen, toInt32_of_small] <;> push_cast <;> omega
  have hpre : ¬ (readByte num 0 ≠ 48 ∨ (readByte num 1 ≠ 120 ∧ readByte num 1 ≠ 88)) := by
    rw [hr0, hr1]; omega
  have hcount : ((ds.length : Int) + 2 - 2).toNat = ds.length := by omega
  have hlt3 : ¬ ((ds.length : Int) + 2 < 3) := by omega
  simp only [hextoi, hint, hlt3, hpre, if_false, hcount]
  obtain ⟨h1, h2⟩ := hextoiLoop_spec num ds hrd hd ds.length (le_refl _) 0 1 (by norm_num)
  rw [List.take_length] at h1
  have hv : hexValue ds < 4294967296 := by
    have := hexValue_lt ds hd
    have h16 : 16 ^ ds.length ≤ 16 ^ 8 := Nat.pow_le_pow_right (by norm_num) hlen8
    have : (16 : Nat) ^ 8 = 4294967296 := by norm_num
    omega
  have h3 : (hextoiLoop num ds.length 0 1 : Int) % 4294967296
      = ((hexValue ds : Nat) : Int) % 4294967296 := by
    have := h1
    simp only [Int.ModEq] at this
    rw [this]
    simp
  omega

/-- Witness of `hextoi_value`: `hextoi("0x1A") = 26`, the string followed in memory
by its terminator and one more byte. -/
theorem hextoi_value_witness :
    cstr (lit "0x1A" ++ [0, 7]) = 48 :: 120 :: lit "1A" ∧
    ((120 : Nat) = 120 ∨ (120 : Nat) = 88) ∧ 1 ≤ (lit "1A").length ∧ (lit "1A").length ≤ 8 ∧
    (∀ c ∈ lit "1A", isHexDigit c = true) ∧ hextoi (lit "0x1A" ++ [0, 7]) = 26 :=
  ⟨by decide, by decide, by decide, by decide, by decide,
    hextoi_value (lit "0x1A" ++ [0, 7]) 120 (lit "1A") (by decide) (by decide) (by decide)
      (by decide) (by decide)⟩

/-- C4. `hextoi64` at the nine-digit input "0x100000000": the `int` multiplier has
wrapped to `0` when the ninth digit is reached, so the code returns `0` where the
digits read in base 16 are worth `2^32`; at "0x80000000" the `int` product
`8 * 16^7` wraps to `-2^31` and is sign-extended into the 64-bit sum. -/
theorem hextoi64_high_digits :
    hextoi64 (lit "0x100000000") = 0 ∧ hexValue (lit "100000000") = 4294967296 ∧
    hextoi64 (lit "0x80000000") = 18446744071562067968 ∧
    hexValue (lit "80000000") = 2147483648 := by
  decide

theorem hextoiLoop_invalid (num : List Nat) (n : Nat) (j : Nat) (hj : j < n)
    (hbad : isHexDigit (readByte num (j + 2)) = false) (ret : Nat) (mul : Int) :
    hextoiLoop num n ret mul = 0 := by
  induction n generalizing ret mul with
  | zero => omega
  | succ n ih =>
    simp only [hextoiLoop]
    by_cases hjn : j = n
    · subst hjn
      simp only [isHexDigit, Bool.or_eq_false_iff, Bool.and_eq_false_iff,
        decide_eq_false_iff_not] at hbad
      have hA : ¬ ((65 : Int) ≤ (readByte num (j + 2) : Int) ∧
          (readByte num (j + 2) : Int) ≤ 70) := by omega
      have ha : ¬ ((97 : Int) ≤ (readByte num (j + 2) : Int) ∧
          (readByte num (j + 2) : Int) ≤ 102) := by omega
      have h0 : ¬ ((48 : Int) ≤ (readByte num (j + 2) : Int) ∧
          (readByte num (j + 2) : Int) ≤ 57) := by omega
      rw [if_neg hA, if_neg ha, if_neg h0]
    · have hlt : j < n := by omega
      split_ifs
      · exact ih hlt _ _
      · exact ih hlt _ _
      · exact ih hlt _ _
      · rfl

theorem hextoi64Loop_invalid (num : List Nat) (n : Nat) (j : Nat) (hj : j < n)
    (hbad : isHexDigit (readByte num (j + 2)) = false) (ret : Nat) (mul : Int) :
    hextoi64Loop num n ret mul = 0 := by
  induction n generalizing ret mul with
  | zero => omega
  | succ n ih =>
    simp only [hextoi64Loop]
    by_cases hjn : j = n
    · subst hjn
      simp only [isHexDigit, Bool.or_eq_false_iff, Bool.and_eq_false_iff,
        decide_eq_false_iff_not] at hbad
      have hA : ¬ ((65 : Int) ≤ (readByte num (j + 2) : Int) ∧
          (readByte num (j + 2) : Int) ≤ 70) := by omega
      have ha : ¬ ((97 : Int) ≤ (readByte num (j + 2) : Int) ∧
          (readByte num (j + 2) : Int) ≤ 102) := by omega
      have h0 : ¬ ((48 : Int) ≤ (readByte num (j + 2) : Int) ∧
          (readByte num (j + 2) : Int) ≤ 57) := by omega
      rw [if_neg hA, if_neg ha, if_neg h0]
    · have hlt : j < n := by omega
      split_ifs
      · exact ih hlt _ _
      · exact ih hlt _ _
      · exact ih hlt _ _
      · rfl

/-- C5. For a string shorter than `2^31` bytes (so that `int len` holds its length):
if it has fewer than 3 characters, or does not start with `0`, or its second
character is neither `x` nor `X`, or some character at an index `≥ 2` is not a
hexadecimal digit, then `hextoi` and `hextoi64` both return `0`. -/
theorem hextoi_invalid_zero (s : List Nat) (hint : strlen s < 2147483648)
    (h : strlen s < 3 ∨ readByte s 0 ≠ 48 ∨ (readByte s 1 ≠ 120 ∧ readByte s 1 ≠ 88) ∨
      ∃ i, 2 ≤ i ∧ i < strlen s ∧ isHexDigit (readByte s i) = false) :
    hextoi s = 0 ∧ hextoi64 s = 0 := by
  have hlen : toInt32 ((strlen s : Nat) : Int) = (strlen s : Int) :=
    toInt32_of_small _ (by omega) (by omega)
  simp only [hextoi, hextoi64, hlen]
  by_cases h3 : ((strlen s : Nat) : Int) < 3
  · simp [h3]
  · rw [if_neg h3, if_neg h3]
    by_cases hp : readByte s 0 ≠ 48 ∨ (readByte s 1 ≠ 120 ∧ readByte s 1 ≠ 88)
    · simp [hp]
    · rw [if_neg hp, if_neg hp]
      rcases h with h | h | h | ⟨i, hi2, hilt, hbad⟩
      · omega
      · exact absurd (Or.inl h) hp
      · exact absurd (Or.inr h) hp
      · have hj : i - 2 < ((strlen s : Int) - 2).toNat := by omega
        have hidx : i - 2 + 2 = i := by omega
        exact ⟨hextoiLoop_invalid s _ (i - 2) hj (by rw [hidx]; exact hbad) 0 1,
          hextoi64Loop_invalid s _ (i - 2) hj (by rw [hidx]; exact hbad) 0 1⟩

/-- Witness of `hextoi_invalid_zero`: "0x1G2" has an invalid digit in the middle. -/
theorem hextoi_invalid_zero_witness :
    strlen (lit "0x1G2") < 2147483648 ∧
    (∃ i, 2 ≤ i ∧ i < strlen (lit "0x1G2") ∧ isHexDigit (readByte (lit "0x1G2") i) = false) ∧
    hextoi (lit "0x1G2") = 0 ∧ hextoi64 (lit "0x1G2") = 0 :=
  ⟨by decide, ⟨3, by decide⟩,
    hextoi_invalid_zero (lit "0x1G2") (by decide) (Or.inr (Or.inr (Or.inr ⟨3, by decide⟩)))⟩

/-- C6. `hextoi64("0xFFFFFFFFFFFFFFFF") = 2^64 - 1`, the `int` multiplier and the
`int` products wrapping at 32 bits and converted to `uint64` when added. -/
theorem hextoi64_all_F : hextoi64 (lit "0xFFFFFFFFFFFFFFFF") = 2 ^ 64 - 1 := by
  decide

/-! ## Boolean parsing -/

theorem tolower_eq_zero_iff (c : Nat) : tolower c = 0 ↔ c = 0 := by
  unfold tolower
  by_cases hc : 65 ≤ c ∧ c ≤ 90
  · rw [if_pos hc]
    constructor
    · intro h0; omega
    · intro h0; omega
  · rw [if_neg hc]

/-- `strcasecmp` returns `0` exactly when the two C strings are equal ignoring
ASCII case. -/
theorem strcasecmp_eq_zero_iff (a b : List Nat) :
    strcasecmp a b = 0 ↔ eqIgnoreCase (cstr a) (cstr b) := by
  unfold eqIgnoreCase
  induction a generalizing b with
  | nil =>
    cases b with
    | nil => simp [strcasecmp, cstr]
    | cons b bs =>
      by_cases hb : b = 0
      · simp [strcasecmp, cstr, hb, tolower]
      · have : tolower b ≠ 0 := fun h => hb ((tolower_eq_zero_iff b).1 h)
        simp only [strcasecmp, cstr, hb, if_false, List.map_nil, List.map_cons]
        constructor
        · intro h; omega
        · intro h; simp at h
  | cons a as ih =>
    cases b with
    | nil =>
      by_cases ha : a = 0
      · simp [strcasecmp, cstr, ha, tolower]
      · have : tolower a ≠ 0 := fun h => ha ((tolower_eq_zero_iff a).1 h)
        simp only [strcasecmp, cstr, ha, if_false, List.map_nil, List.map_cons]
        constructor
        · intro h; omega
        · intro h; simp at h
    | cons b bs =>
      by_cases hne : tolower a ≠ tolower b
      · simp only [strcasecmp, hne, if_true, ne_eq, not_false_eq_true]
        constructor
        · intro h; omega
        · intro h
          exfalso
          by_cases ha : a = 0
          · have hb : b ≠ 0 := by
              intro hb; apply hne; rw [ha, hb]
            simp [cstr, ha, hb] at h
          · by_cases hb : b = 0
            · simp [cstr, ha, hb] at h
            · simp [cstr, ha, hb] at h
              exact hne h.1
      · have heq : tolower a = tolower b := not_not.1 hne
        by_cases ha : a = 0
        · have hb : b = 0 := by
            rw [ha] at heq
            exact (tolower_eq_zero_iff b).1 heq.symm
          simp [strcasecmp, cstr, ha, hb]
        · have hb : b ≠ 0 := by
            intro hb
            rw [hb] at heq
            exact ha ((tolower_eq_zero_iff a).1 heq)
          simp only [strcasecmp, heq, ne_eq, not_true_eq_false, if_false, ha, cstr, hb,
            List.map_cons, List.cons.injEq, true_and]
          exact ih bs

/-- C7. A token equal, ignoring ASCII case, to one of "true", "yes", "on", "enable",
"enabled", "y" makes `atobool` return `true`; one equal, ignoring ASCII case, to one
of "false", "no", "off", "disable", "disabled", "n" makes it return `false`. -/
theorem atobool_vocabulary (outOfRange : Int → Int) (tok w : List Nat)
    (h : eqIgnoreCase (cstr tok) w) :
    (w ∈ trueWords → atobool outOfRange tok = true) ∧
    (w ∈ falseWords → atobool outOfRange tok = false) := by
  have key : ∀ x, strcasecmp tok x = 0 ↔ w.map tolower = (cstr x).map tolower := by
    intro x
    rw [strcasecmp_eq_zero_iff]
    unfold eqIgnoreCase at *
    rw [h]
  unfold atobool
  simp only [key]
  constructor
  · intro hw
    simp only [trueWords, List.mem_cons, List.mem_singleton, List.not_mem_nil, or_false] at hw
    rcases hw with rfl | rfl | rfl | rfl | rfl | rfl <;> rfl
  · intro hw
    simp only [falseWords, List.mem_cons, List.mem_singleton, List.not_mem_nil, or_false] at hw
    rcases hw with rfl | rfl | rfl | rfl | rfl | rfl <;> rfl

/-- Witness of `atobool_vocabulary`: "YES" gives `true` and "Off" gives `false`. -/
theorem atobool_vocabulary_witness :
    (eqIgnoreCase (cstr (lit "YES")) (lit "yes") ∧ lit "yes" ∈ trueWords ∧
      atobool (fun _ => 0) (lit "YES") = true) ∧
    (eqIgnoreCase (cstr (lit "Off")) (lit "off") ∧ lit "off" ∈ falseWords ∧
      atobool (fun _ => 0) (lit "Off") = false) :=
  ⟨⟨by decide, by decide,
      (atobool_vocabulary (fun _ => 0) (lit "YES") (lit "yes") (by decide)).1 (by decide)⟩,
    ⟨by decide, by decide,
      (atobool_vocabulary (fun _ => 0) (lit "Off") (lit "off") (by decide)).2 (by decide)⟩⟩

theorem atoiDigits_of_not_digit (l : List Nat) (h : ∀ c cs, l = c :: cs → isdigit c = false) :
    atoiDigits l 0 = 0 := by
  cases l with
  | nil => rfl
  | cons c cs => simp [atoiDigits, h c cs rfl]

theorem leadingInteger_eq_zero (s : List Nat) (h : hasLeadingInteger s = false) :
    leadingInteger s = 0 := by
  unfold hasLeadingInteger at h
  unfold leadingInteger
  generalize skipSpace s = l at h
  split
  · next cs =>
    have : atoiDigits cs 0 = 0 := by
      apply atoiDigits_of_not_digit
      intro c cs2 hc
      subst hc
      simpa using h
    simp [this]
  · next cs =>
    apply atoiDigits_of_not_digit
    intro c cs2 hc
    subst hc
    simpa using h
  · next cs h45 h43 =>
    apply atoiDigits_of_not_digit
    intro c cs2 hc
    subst hc
    split at h
    · next heq => exact absurd heq (h45 _)
    · next heq => exact absurd heq (h43 _)
    · next heq =>
      simp only [List.cons.injEq] at heq
      rw [heq.1]
      exact h
    · next heq => simp at heq

/-- C8. For a token that matches none of the twelve vocabulary words ignoring ASCII
case, `atobool` returns `true` exactly when `atoi` of the token is nonzero; in
particular a token with no integer at its head gives `false`. -/
theorem atobool_numeric (outOfRange : Int → Int) (tok : List Nat)
    (hno : ∀ w ∈ trueWords ++ falseWords, ¬ eqIgnoreCase (cstr tok) w) :
    (atobool outOfRange tok = true ↔ atoi outOfRange tok ≠ 0) ∧
    (hasLeadingInteger tok = false → atobool outOfRange tok = false) := by
  have key : ∀ w ∈ trueWords ++ falseWords, cstr w = w → ¬ (strcasecmp tok w = 0) := by
    intro w hw hc
    rw [strcasecmp_eq_zero_iff, hc]
    exact hno w hw
  have h1 := key (lit "true") (by decide) (by decide)
  have h2 := key (lit "false") (by decide) (by decide)
  have h3 := key (lit "yes") (by decide) (by decide)
  have h4 := key (lit "no") (by decide) (by decide)
  have h5 := key (lit "on") (by decide) (by decide)
  have h6 := key (lit "off") (by decide) (by decide)
  have h7 := key (lit "enable") (by decide) (by decide)
  have h8 := key (lit "disable") (by decide) (by decide)
  have h9 := key (lit "enabled") (by decide) (by decide)
  have h10 := key (lit "disabled") (by decide) (by decide)
  have h11 := key (lit "y") (by decide) (by decide)
  have h12 := key (lit "n") (by decide) (by decide)
  have hdef : atobool outOfRange tok = if atoi outOfRange tok ≠ 0 then true else false := by
    unfold atobool
    rw [if_neg h1, if_neg h2, if_neg h3, if_neg h4, if_neg h5, if_neg h6, if_neg h7,
      if_neg h8, if_neg h9, if_neg h10, if_neg h11, if_neg h12]
  rw [hdef]
  constructor
  · by_cases hz : atoi outOfRange tok = 0 <;> simp [hz]
  · intro hlead
    have : atoi outOfRange tok = 0 := by
      unfold atoi
      rw [leadingInteger_eq_zero tok hlead]
      simp
    simp [this]

/-- Witness of `atobool_numeric`: "42" gives `true` and "abc" gives `false`. -/
theorem atobool_numeric_witness :
    ((∀ w ∈ trueWords ++ falseWords, ¬ eqIgnoreCase (cstr (lit "42")) w) ∧
      atobool (fun _ => 0) (lit "42") = true) ∧
    ((∀ w ∈ trueWords ++ falseWords, ¬ eqIgnoreCase (cstr (lit "abc")) w) ∧
      hasLeadingInteger (lit "abc") = false ∧ atobool (fun _ => 0) (lit "abc") = false) :=
  ⟨⟨by decide, (atobool_numeric (fun _ => 0) (lit "42") (by decide)).1.2 (by decide)⟩,
    ⟨by decide, by decide,
      (atobool_numeric (fun _ => 0) (lit "abc") (by decide)).2 (by decide)⟩⟩

/-! ## Name cleaning -/

theorem set_length_append (pre rest : List Nat) (r x : Nat) :
    (pre ++ r :: rest).set pre.length x = pre ++ x :: rest := by
  induction pre with
  | nil => rfl
  | cons a pre ih => simp [ih]

theorem cleanedName_cons (c : Nat) (cs : List Nat) :
    cleanedName (c :: cs) =
      if c = 95 then 32 :: cleanedName cs
      else if isalpha c = true ∨ c = 96 then c :: cleanedName cs
      else cleanedName cs := by
  by_cases h95 : c = 95
  · simp [cleanedName, h95]
  · by_cases hk : isalpha c = true ∨ c = 96
    · rcases hk with hk | hk <;> simp [cleanedName, h95, hk, List.filter_cons]
    · have h1 : isalpha c = false := by
        cases hh : isalpha c
        · rfl
        · exact absurd (Or.inl hh) hk
      have h2 : c ≠ 96 := fun hh => hk (Or.inr hh)
      simp [cleanedName, h95, h1, h2, List.filter_cons]

theorem cleanedName_ne_zero (s : List Nat) : ∀ c ∈ cleanedName s, c ≠ 0 := by
  induction s with
  | nil => simp [cleanedName]
  | cons a s ih =>
    intro c hc
    rw [cleanedName_cons] at hc
    split_ifs at hc with h95 hk
    · rcases List.mem_cons.1 hc with rfl | hc
      · decide
      · exact ih c hc
    · rcases List.mem_cons.1 hc with rfl | hc
      · rcases hk with hk | hk
        · simp [isalpha] at hk
          omega
        · omega
      · exact ih c hc
    · exact ih c hc

theorem cleanedName_length_le (s : List Nat) : (cleanedName s).length ≤ s.length := by
  unfold cleanedName
  rw [List.length_map]
  exact List.length_filter_le _ _

/-- The loop of `CleanMobName` from the state `(i, j, pre ++ rest)` with `j` the
length of `pre`: with enough fuel and room it exits having written, after `pre`, the
cleaned text of the input from index `i` on. -/
theorem CleanMobNameLoop_spec (inp : List Nat) (fuel i : Nat) (pre rest : List Nat)
    (hfuel : strlen inp - i < fuel) (hi : i ≤ strlen inp)
    (hroom : (cleanedName ((cstr inp).drop i)).length ≤ rest.length) :
    CleanMobNameLoop inp fuel i pre.length (pre ++ rest) =
      some (pre.length + (cleanedName ((cstr inp).drop i)).length,
        pre ++ cleanedName ((cstr inp).drop i)
          ++ rest.drop (cleanedName ((cstr inp).drop i)).length) := by
  induction fuel generalizing i pre rest with
  | zero => omega
  | succ fuel ih =>
    by_cases hlt : i < strlen inp
    · have hdrop := drop_cstr inp i hlt
      rw [hdrop, cleanedName_cons] at hroom ⊢
      simp only [CleanMobNameLoop, hlt, if_true]
      by_cases h95 : readByte inp i = 95
      · simp only [h95, if_true] at hroom ⊢
        cases rest with
        | nil => simp at hroom
        | cons r rest =>
          have hroom2 : (cleanedName ((cstr inp).drop (i + 1))).length ≤ rest.length := by
            simpa using hroom
          have := ih (i + 1) (pre ++ [32]) rest (by omega) (by omega) hroom2
          rw [set_length_append]
          simp only [List.length_append, List.length_singleton, List.append_assoc,
            List.singleton_append] at this
          rw [this]
          simp [Nat.add_assoc, Nat.add_comm 1]
      · simp only [h95, if_false] at hroom ⊢
        by_cases hk : isalpha (readByte inp i) = true ∨ readByte inp i = 96
        · simp only [hk, if_true] at hroom ⊢
          cases rest with
          | nil => simp at hroom
          | cons r rest =>
            have hroom2 : (cleanedName ((cstr inp).drop (i + 1))).length ≤ rest.length := by
              simpa using hroom
            have := ih (i + 1) (pre ++ [readByte inp i]) rest (by omega) (by omega) hroom2
            rw [set_length_append]
            simp only [List.length_append, List.length_singleton, List.append_assoc,
              List.singleton_append] at this
            rw [this]
            simp [Nat.add_assoc, Nat.add_comm 1]
        · simp only [hk, if_false] at hroom ⊢
          exact ih (i + 1) pre rest (by omega) (by omega) hroom
    · have hie : i = strlen inp := by omega
      have hnil : (cstr inp).drop i = [] := by
        rw [hie, strlen_eq_length_cstr, List.drop_length]
      simp [CleanMobNameLoop, hlt, hnil, cleanedName]

/-- C9. For an ASCII input shorter than `2^32` bytes, an `out` buffer with room for
the result and its terminator, and enough fuel for the loop, `CleanMobName` returns
`out` and leaves there the characters of the input that are alphabetic, underscore or
backtick, in order and with each underscore replaced by a space, followed by a
terminator; the bytes after the terminator are unchanged and the result is never
longer than the input. -/
theorem CleanMobName_spec (fuel : Nat) (inp : List Nat) (out : CharPtr)
    (hfuel : strlen inp < fuel) (_hascii : ∀ c ∈ cstr inp, c < 128)
    (hlen : strlen inp < 4294967296)
    (hroom : (cleanedName (cstr inp)).length < out.bytes.length) :
    CleanMobName fuel inp out =
      some { ret := out.addr,
             out := cleanedName (cstr inp) ++
               0 :: out.bytes.drop ((cleanedName (cstr inp)).length + 1) } ∧
    cstr (cleanedName (cstr inp) ++
      0 :: out.bytes.drop ((cleanedName (cstr inp)).length + 1)) = cleanedName (cstr inp) ∧
    (cleanedName (cstr inp)).length ≤ strlen inp := by
  refine ⟨?_, cstr_append_zero _ _ (cleanedName_ne_zero _), ?_⟩
  · have h := CleanMobNameLoop_spec inp fuel 0 [] out.bytes (by omega) (by omega)
      (by simpa using Nat.le_of_lt hroom)
    simp only [List.length_nil, List.nil_append, List.drop_zero, Nat.zero_add] at h
    simp only [CleanMobName, h]
    have hd : out.bytes.drop (cleanedName (cstr inp)).length
        = out.bytes[(cleanedName (cstr inp)).length] ::
          out.bytes.drop ((cleanedName (cstr inp)).length + 1) :=
      List.drop_eq_getElem_cons hroom
    rw [hd, set_length_append]
  · rw [strlen_eq_length_cstr]
    exact cleanedName_length_le _

/-- Witness of `CleanMobName_spec`: "Big_Bad_Orc#1" gives "Big Bad Orc". -/
theorem CleanMobName_spec_witness :
    (strlen (lit "Big_Bad_Orc#1") < 14 ∧ (∀ c ∈ cstr (lit "Big_Bad_Orc#1"), c < 128) ∧
      strlen (lit "Big_Bad_Orc#1") < 4294967296 ∧
      (cleanedName (cstr (lit "Big_Bad_Orc#1"))).length < (List.replicate 14 7).length) ∧
    CleanMobName 14 (lit "Big_Bad_Orc#1") ⟨1, List.replicate 14 7⟩
      = some ⟨1, lit "Big Bad Orc" ++ [0, 7, 7]⟩ :=
  ⟨by decide,
    (CleanMobName_spec 14 (lit "Big_Bad_Orc#1") ⟨1, List.replicate 14 7⟩
      (by decide) (by decide) (by decide) (by decide)).1.trans (by decide)⟩

/-! ## Apostrophe removal -/

theorem replaceApostrophe_ne_zero (c : Nat) (h : c ≠ 0) : replaceApostrophe c ≠ 0 := by
  unfold replaceApostrophe
  split_ifs <;> omega

theorem readByte_append_length (pre rest : List Nat) (r : Nat) :
    readByte (pre ++ r :: rest) pre.length = r := by
  induction pre with
  | nil => rfl
  | cons a pre ih => simpa [readByte] using ih

/-- The loop of the in-place variant from index `i = |pre|` on `pre ++ rest`: with
enough fuel it exits with `rest` replaced character by character. -/
theorem RemoveApostrophesLoop_spec (fuel : Nat) (pre rest : List Nat)
    (hfuel : rest.length < fuel) :
    RemoveApostrophesLoop fuel pre.length (pre ++ rest)
      = some (pre ++ rest.map replaceApostrophe) := by
  induction fuel generalizing pre rest with
  | zero => omega
  | succ fuel ih =>
    cases rest with
    | nil => simp [RemoveApostrophesLoop]
    | cons r rest =>
      have hlt : pre.length < (pre ++ r :: rest).length := by simp
      have hfuel2 : rest.length < fuel := by simpa using hfuel
      have hstep := ih (pre ++ [replaceApostrophe r]) rest hfuel2
      simp only [List.length_append, List.length_singleton, List.append_assoc,
        List.singleton_append] at hstep
      simp only [RemoveApostrophesLoop, hlt, if_true, readByte_append_length,
        set_length_append, List.map_cons]
      by_cases h39 : r = 39
      · simpa [h39, replaceApostrophe] using hstep
      · simpa [h39, replaceApostrophe] using hstep

theorem strlen_append_zero (p rest : List Nat) (hp : ∀ c ∈ p, c ≠ 0) :
    strlen (p ++ 0 :: rest) = p.length := by
  rw [strlen_eq_length_cstr, cstr_append_zero p rest hp]

/-- The loop of the allocating variant from index `i = |pre|` on the terminated
buffer `pre ++ rest ++ [0]`. -/
theorem RemoveApostrophesCLoop_spec (fuel : Nat) (pre rest : List Nat)
    (hpre : ∀ c ∈ pre, c ≠ 0) (hrest : ∀ c ∈ rest, c ≠ 0) (hfuel : rest.length < fuel) :
    RemoveApostrophesCLoop fuel pre.length (pre ++ (rest ++ [0]))
      = some (pre ++ (rest.map replaceApostrophe ++ [0])) := by
  induction fuel generalizing pre rest with
  | zero => omega
  | succ fuel ih =>
    cases rest with
    | nil =>
      have : strlen (pre ++ [0]) = pre.length := strlen_append_zero pre [] hpre
      simp [RemoveApostrophesCLoop, this]
    | cons r rest =>
      have hall : ∀ c ∈ pre ++ r :: rest, c ≠ 0 := by
        intro c hc
        rcases List.mem_append.1 hc with hc | hc
        · exact hpre c hc
        · exact hrest c hc
      have hsl : strlen (pre ++ r :: (rest ++ [0])) = pre.length + (rest.length + 1) := by
        have := strlen_append_zero (pre ++ r :: rest) [] hall
        simpa using this
      have hlt : pre.length < strlen (pre ++ r :: (rest ++ [0])) := by omega
      have hfuel2 : rest.length < fuel := by simpa using hfuel
      have hr : r ≠ 0 := hrest r (List.mem_cons_self _ _)
      have hpre2 : ∀ c ∈ pre ++ [replaceApostrophe r], c ≠ 0 := by
        intro c hc
        rcases List.mem_append.1 hc with hc | hc
        · exact hpre c hc
        · rw [List.mem_singleton] at hc
          rw [hc]
          exact replaceApostrophe_ne_zero r hr
      have hstep := ih (pre ++ [replaceApostrophe r]) rest hpre2
        (fun c hc => hrest c (List.mem_cons_of_mem _ hc)) hfuel2
      simp only [List.length_append, List.length_singleton, List.append_assoc,
        List.singleton_append] at hstep
      simp only [List.cons_append, List.map_cons]
      rw [RemoveApostrophesCLoop, if_pos hlt, readByte_append_length, set_length_append]
      by_cases h39 : r = 39
      · simpa [h39, replaceApostrophe] using hstep
      · simpa [h39, replaceApostrophe] using hstep

theorem strcpy_spec (dest src : List Nat) (h : strlen src < dest.length) :
    strcpy dest src = cstr src ++ 0 :: dest.drop (strlen src + 1) := by
  induction dest generalizing src with
  | nil => simp at h
  | cons d dest ih =>
    cases src with
    | nil => simp [strcpy, cstr, strlen]
    | cons c cs =>
      by_cases hc : c = 0
      · simp [strcpy, cstr, strlen, hc]
      · have h2 : strlen cs < dest.length := by
          simpa [strlen, hc] using h
        simp [strcpy, cstr, strlen, hc, ih cs h2]

theorem newCharArray_length (n : Nat) (fresh : Nat → Nat) :
    (newCharArray n fresh).length = n := by
  simp [newCharArray]

/-- C10. For a string `s` without embedded NUL and shorter than `2^32`, and enough
fuel for the loops, both variants of `RemoveApostrophes` produce the same text `r`,
of the length of `s`, with `r[i] = '_'` where `s[i]` is an apostrophe and
`r[i] = s[i]` elsewhere: the in-place variant leaves `r` in `s`; the allocating
variant, given `s` followed by its terminator, returns a buffer of `strlen(s) + 1`
bytes holding `r` and a terminator, and leaves its input as it was. -/
theorem RemoveApostrophes_spec (fuel : Nat) (s tail : List Nat) (fresh : Nat → Nat)
    (hnul : ∀ c ∈ s, c ≠ 0) (hfuel : s.length < fuel) (_hlen : s.length < 4294967296) :
    ∃ r, RemoveApostrophes fuel s = some r ∧
      r.length = s.length ∧
      (∀ i, i < s.length →
        readByte r i = if readByte s i = 39 then 95 else readByte s i) ∧
      RemoveApostrophesC fuel (s ++ 0 :: tail) fresh
        = some { s := s ++ 0 :: tail, NewString := r ++ [0] } ∧
      (r ++ [0]).length = strlen (s ++ 0 :: tail) + 1 := by
  refine ⟨s.map replaceApostrophe, ?_, by simp, ?_, ?_, ?_⟩
  · simpa [RemoveApostrophes] using RemoveApostrophesLoop_spec fuel [] s hfuel
  · intro i hi
    simp [readByte, List.getD_eq_getElem?_getD, List.getElem?_eq_getElem hi,
      replaceApostrophe]
  · have hsl : strlen (s ++ 0 :: tail) = s.length := strlen_append_zero s tail hnul
    have hcp : strcpy (newCharArray (strlen (s ++ 0 :: tail) + 1) fresh) (s ++ 0 :: tail)
        = s ++ [0] := by
      rw [strcpy_spec _ _ (by rw [newCharArray_length]; omega), cstr_append_zero s tail hnul,
        List.drop_of_length_le (by rw [newCharArray_length])]
    have hloop := RemoveApostrophesCLoop_spec fuel [] s (by simp) hnul hfuel
    simp only [List.length_nil, List.nil_append] at hloop
    simp only [RemoveApostrophesC, hcp, hloop]
  · rw [strlen_append_zero s tail hnul]
    simp

/-- Witness of `RemoveApostrophes_spec`: "O'Brien" gives "O_Brien" in both variants. -/
theorem RemoveApostrophes_spec_witness :
    ((∀ c ∈ lit "O'Brien", c ≠ 0) ∧ (lit "O'Brien").length < 8 ∧
      (lit "O'Brien").length < 4294967296) ∧
    (∃ r, RemoveApostrophes 8 (lit "O'Brien") = some r ∧
      r.length = (lit "O'Brien").length ∧
      (∀ i, i < (lit "O'Brien").length →
        readByte r i = if readByte (lit "O'Brien") i = 39 then 95
          else readByte (lit "O'Brien") i) ∧
      RemoveApostrophesC 8 (lit "O'Brien" ++ 0 :: [5]) (fun _ => 9)
        = some { s := lit "O'Brien" ++ 0 :: [5], NewString := r ++ [0] } ∧
      (r ++ [0]).length = strlen (lit "O'Brien" ++ 0 :: [5]) + 1) ∧
    RemoveApostrophes 8 (lit "O'Brien") = some (lit "O_Brien") :=
  ⟨by decide,
    RemoveApostrophes_spec 8 (lit "O'Brien") [5] (fun _ => 9) (by decide) (by decide)
      (by decide),
    by decide⟩

/-- C11. With enough fuel for its loop, `RemoveApostrophes` leaves a string without
apostrophe as it is, and on every string `s` it yields a text `r` without apostrophe
that a second call leaves unchanged. -/
theorem RemoveApostrophes_idempotent (fuel : Nat) (s : List Nat)
    (hfuel : s.length < fuel) (_hlen : s.length < 4294967296) :
    ((∀ c ∈ s, c ≠ 39) → RemoveApostrophes fuel s = some s) ∧
    ∃ r, RemoveApostrophes fuel s = some r ∧ RemoveApostrophes fuel r = some r ∧
      ∀ c ∈ r, c ≠ 39 := by
  have hrun : ∀ t : List Nat, t.length < fuel →
      RemoveApostrophes fuel t = some (t.map replaceApostrophe) := by
    intro t ht
    simpa [RemoveApostrophes] using RemoveApostrophesLoop_spec fuel [] t ht
  have hid : ∀ t : List Nat, (∀ c ∈ t, c ≠ 39) → t.map replaceApostrophe = t := by
    intro t ht
    induction t with
    | nil => rfl
    | cons a t ih =>
      have ha : a ≠ 39 := ht a (List.mem_cons_self _ _)
      have := ih (fun c hc => ht c (List.mem_cons_of_mem _ hc))
      simp [replaceApostrophe, ha, this]
  have hno : ∀ c ∈ s.map replaceApostrophe, c ≠ 39 := by
    intro c hc
    obtain ⟨a, _, rfl⟩ := List.mem_map.1 hc
    unfold replaceApostrophe
    split_ifs with h
    · decide
    · exact h
  refine ⟨fun h => ?_, s.map replaceApostrophe, hrun s hfuel, ?_, hno⟩
  · rw [hrun s hfuel, hid s h]
  · rw [hrun _ (by simpa using hfuel), hid _ hno]

/-- Witness of `RemoveApostrophes_idempotent`: on "O'Brien". -/
theorem RemoveApostrophes_idempotent_witness :
    ((lit "O'Brien").length < 8 ∧ (lit "O'Brien").length < 4294967296) ∧
    (((∀ c ∈ lit "O'Brien", c ≠ 39) → RemoveApostrophes 8 (lit "O'Brien")
        = some (lit "O'Brien")) ∧
      ∃ r, RemoveApostrophes 8 (lit "O'Brien") = some r ∧ RemoveApostrophes 8 r = some r ∧
        ∀ c ∈ r, c ≠ 39) :=
  ⟨by decide, RemoveApostrophes_idempotent 8 (lit "O'Brien") (by decide) (by decide)⟩

/-! ## Degenerate arguments of the bounded copy -/

/-- C17. With a null `dest`, `strn0cpy` and `strn0cpyt` write nothing and return the
null pointer and `false`; with a non-null `dest` of at least one byte and a null
source or a size of `0`, they set `dest[0] = 0`, so that `dest` holds the empty
string, change no other byte, and return `dest` and `false`. -/
theorem strn0cpy_degenerate (dest source : CharPtr) (size : Nat) :
    (dest.addr = 0 →
      strn0cpy dest source size = { ret := 0, dest := dest.bytes } ∧
      strn0cpyt dest source size = { ret := false, dest := dest.bytes }) ∧
    (dest.addr ≠ 0 → 0 < dest.bytes.length → (source.addr = 0 ∨ size = 0) →
      (strn0cpy dest source size).ret = dest.addr ∧
      (strn0cpyt dest source size).ret = false ∧
      (strn0cpy dest source size).dest = 0 :: dest.bytes.tail ∧
      (strn0cpyt dest source size).dest = 0 :: dest.bytes.tail ∧
      cstr (strn0cpy dest source size).dest = [] ∧
      cstr (strn0cpyt dest source size).dest = [] ∧
      (∀ i, 1 ≤ i → (strn0cpy dest source size).dest[i]? = dest.bytes[i]?) ∧
      (∀ i, 1 ≤ i → (strn0cpyt dest source size).dest[i]? = dest.bytes[i]?)) := by
  constructor
  · intro h
    simp [strn0cpy, strn0cpyt, h]
  · intro hd hlen hdeg
    have hcond : size = 0 ∨ source.addr = 0 := hdeg.symm
    have h1 : strn0cpy dest source size
        = { ret := dest.addr, dest := dest.bytes.set 0 0 } := by
      simp [strn0cpy, hd, hcond]
    have h2 : strn0cpyt dest source size
        = { ret := false, dest := dest.bytes.set 0 0 } := by
      simp [strn0cpyt, hd, hcond]
    have hset : dest.bytes.set 0 0 = 0 :: dest.bytes.tail := by
      cases hb : dest.bytes with
      | nil => rw [hb] at hlen; simp at hlen
      | cons b bs => rfl
    have hget : ∀ i, 1 ≤ i → (0 :: dest.bytes.tail)[i]? = dest.bytes[i]? := by
      intro i hi
      obtain ⟨k, rfl⟩ : ∃ k, i = k + 1 := ⟨i - 1, by omega⟩
      cases hb : dest.bytes with
      | nil => simp
      | cons b bs => simp
    rw [h1, h2, hset]
    exact ⟨rfl, rfl, rfl, rfl, by simp [cstr], by simp [cstr], hget, hget⟩

/-- Witness of `strn0cpy_degenerate`: a null source and a size of `0`. -/
theorem strn0cpy_degenerate_witness :
    ((1 : Nat) ≠ 0 ∧ 0 < [7, 8, 9].length ∧ ((0 : Nat) = 0 ∨ (4 : Nat) = 0)) ∧
    (strn0cpy ⟨1, [7, 8, 9]⟩ ⟨0, []⟩ 4).dest = [0, 8, 9] ∧
    (strn0cpyt ⟨1, [7, 8, 9]⟩ ⟨2, lit "ab"⟩ 0).dest = [0, 8, 9] ∧
    (strn0cpy ⟨0, [7, 8, 9]⟩ ⟨2, lit "ab"⟩ 4) = { ret := 0, dest := [7, 8, 9] } :=
  ⟨by decide,
    ((strn0cpy_degenerate ⟨1, [7, 8, 9]⟩ ⟨0, []⟩ 4).2 (by decide) (by decide)
      (Or.inl rfl)).2.2.1,
    ((strn0cpy_degenerate ⟨1, [7, 8, 9]⟩ ⟨2, lit "ab"⟩ 0).2 (by decide) (by decide)
      (Or.inr rfl)).2.2.2.1,
    ((strn0cpy_degenerate ⟨0, [7, 8, 9]⟩ ⟨2, lit "ab"⟩ 4).1 rfl).1⟩

/-! ## Formatted append into a `std::string` -/

theorem writeAt_append (pre mid post bytes : List Nat) (h : mid.length = bytes.length) :
    writeAt (pre ++ mid ++ post) pre.length bytes = pre ++ bytes ++ post := by
  induction bytes generalizing pre mid with
  | nil =>
    have : mid = [] := List.length_eq_zero.1 (by simpa using h)
    simp [writeAt, this]
  | cons b bs ih =>
    cases mid with
    | nil => simp at h
    | cons m mid =>
      have hl : mid.length = bs.length := by simpa using h
      have hset : (pre ++ m :: mid ++ post).set pre.length b = pre ++ [b] ++ mid ++ post := by
        have := set_length_append pre (mid ++ post) m b
        simp only [List.append_assoc, List.cons_append, List.singleton_append,
          List.nil_append] at this ⊢
        exact this
      rw [writeAt, hset]
      have := ih (pre ++ [b]) mid hl
      simpa using this

theorem writeAt_eq (buf : List Nat) (off : Nat) (bytes : List Nat)
    (h : off + bytes.length ≤ buf.length) :
    writeAt buf off bytes = buf.take off ++ bytes ++ buf.drop (off + bytes.length) := by
  have hsplit : buf = buf.take off ++ (buf.drop off).take bytes.length
      ++ buf.drop (off + bytes.length) := by
    rw [List.append_assoc, ← List.drop_drop, List.take_append_drop, List.take_append_drop]
  have hoff : (buf.take off).length = off := by
    rw [List.length_take]; omega
  have hmid : ((buf.drop off).take bytes.length).length = bytes.length := by
    rw [List.length_take, List.length_drop]; omega
  have := writeAt_append (buf.take off) ((buf.drop off).take bytes.length)
    (buf.drop (off + bytes.length)) bytes hmid
  rw [hoff, ← hsplit] at this
  exact this

theorem resize_data_of_le (grow : Nat → Nat) (s : StdString) (n : Nat) (h : s.data.length ≤ n) :
    (s.resize grow n).data = s.data ++ List.replicate (n - s.data.length) 0 := by
  unfold StdString.resize
  by_cases h2 : n ≤ s.data.length
  · have : n = s.data.length := by omega
    simp [this]
  · simp [h2]

theorem resize_data_of_ge (grow : Nat → Nat) (s : StdString) (n : Nat) (h : n ≤ s.data.length) :
    (s.resize grow n).data = s.data.take n := by
  simp [StdString.resize, h]

theorem vsnprintfStore_length (buf : List Nat) (off n : Nat) (r : VsnprintfResult)
    (h : off + n ≤ buf.length) : (vsnprintfStore buf off n r).length = buf.length := by
  unfold vsnprintfStore
  have hl : (r.written.take n).length ≤ n := by simp [List.length_take]
  rw [writeAt_eq _ _ _ (by omega)]
  simp only [List.length_append, List.length_take, List.length_drop] at hl ⊢
  omega

theorem vsnprintfStore_take (buf : List Nat) (off n : Nat) (r : VsnprintfResult)
    (h : off + n ≤ buf.length) : (vsnprintfStore buf off n r).take off = buf.take off := by
  unfold vsnprintfStore
  have hl : (r.written.take n).length ≤ n := by simp [List.length_take]
  rw [writeAt_eq _ _ _ (by omega), List.append_assoc, List.take_left']
  rw [List.length_take]; omega

theorem vsnprintfStore_fits (pre buf F : List Nat) (n : Nat) (k : Nat)
    (hbuf : pre.length + n ≤ buf.length) (hpre : buf.take pre.length = pre)
    (hF : F.length < n) :
    vsnprintfStore buf pre.length n (vsnprintfOf F k n)
      = pre ++ F ++ 0 :: buf.drop (pre.length + F.length + 1) := by
  unfold vsnprintfStore vsnprintfOf
  have hn : n ≠ 0 := by omega
  have h1 : F.take (n - 1) = F := List.take_of_length_le (by omega)
  have h2 : (F ++ [0]).take n = F ++ [0] := List.take_of_length_le (by simp; omega)
  simp only [hn, if_false, h1, h2]
  rw [writeAt_eq _ _ _ (by simp; omega), hpre]
  simp [Nat.add_assoc]

theorem toInt32_natCast (n : Nat) (h : n < 2147483648) : toInt32 (n : Int) = n :=
  toInt32_of_small _ (by omega) (by omega)

theorem toInt32_range (x : Int) : -2147483648 ≤ toInt32 x ∧ toInt32 x < 2147483648 := by
  unfold toInt32
  omega

/-- C12. For every `std::string` (any length, any capacity at least its length) and
every formatted text `F` shorter than `INT_MAX` that a conforming `vsnprintf`
produces, `StringFormat` throws nothing and leaves `output` equal to its old content
followed by `F`, on the first attempt as on the resize-and-retry path. -/
theorem StringFormat_appends (grow : Nat → Nat) (output : StdString) (F : List Nat)
    (hcap : output.data.length ≤ output.capacity) (hF : F.length < 2147483647) :
    (StringFormat grow (vsnprintfOf F) output).error = none ∧
    (StringFormat grow (vsnprintfOf F) output).output.data = output.data ++ F := by
  obtain ⟨data, cap⟩ := output
  simp only at hcap
  have hret : ∀ k n, (vsnprintfOf F k n).ret = (F.length : Int) := fun _ _ => rfl
  have hb : toInt32 (F.length : Int) = F.length := toInt32_natCast _ (by omega)
  have hb1 : toInt32 ((F.length : Int) + 1) = F.length + 1 :=
    toInt32_of_small _ (by omega) (by omega)
  have hu : toUInt32 (F.length : Int) = F.length := by unfold toUInt32; omega
  have hu1 : toUInt32 ((F.length : Int) + 1) = F.length + 1 := by unfold toUInt32; omega
  have hu2 : toUInt64 ((F.length : Int) + 1) = F.length + 1 := by unfold toUInt64; omega
  have hnn : ¬ ((F.length : Int) < 0) := by omega
  have hr0 : (StdString.resize grow ⟨data, cap⟩ cap).data
      = data ++ List.replicate (cap - data.length) 0 := resize_data_of_le _ _ _ hcap
  have hlen0 : (StdString.resize grow ⟨data, cap⟩ cap).data.length = cap := by
    rw [hr0]; simp; omega
  have htake0 : (StdString.resize grow ⟨data, cap⟩ cap).data.take data.length = data := by
    rw [hr0]; simp
  simp only [StringFormat, hret, hb, hb1, hu, hu1, hu2, hnn, if_false, Int.toNat_ofNat,
    ne_eq, not_true_eq_false]
  by_cases hfit : F.length < cap - data.length
  · simp only [hfit, if_true, true_and]
    rw [resize_data_of_ge]
    · simp only
      rw [vsnprintfStore_fits data _ F _ 0 (by rw [hlen0]; omega) htake0 hfit]
      rw [List.append_assoc, List.take_append_eq_append_take]
      simp
    · simp only
      rw [vsnprintfStore_length _ _ _ _ (by rw [hlen0]; omega), hlen0]
      omega
  · simp only [hfit, if_false, true_and]
    have hd1l := vsnprintfStore_length
      (StdString.resize grow ⟨data, cap⟩ cap).data data.length (cap - data.length)
      (vsnprintfOf F 0 (cap - data.length)) (by rw [hlen0]; omega)
    have hd1t := vsnprintfStore_take
      (StdString.resize grow ⟨data, cap⟩ cap).data data.length (cap - data.length)
      (vsnprintfOf F 0 (cap - data.length)) (by rw [hlen0]; omega)
    rw [hlen0] at hd1l
    rw [htake0] at hd1t
    generalize vsnprintfStore (StdString.resize grow ⟨data, cap⟩ cap).data data.length
      (cap - data.length) (vsnprintfOf F 0 (cap - data.length)) = d1 at hd1l hd1t
    generalize (StdString.resize grow ⟨data, cap⟩ cap).capacity = c1
    have hr2 : (StdString.resize grow ⟨d1, c1⟩ (data.length + F.length + 1)).data
        = d1 ++ List.replicate (data.length + F.length + 1 - cap) 0 := by
      rw [resize_data_of_le _ _ _ (by simp only; omega)]
      simp only [hd1l]
    have hl2 : (StdString.resize grow ⟨d1, c1⟩ (data.length + F.length + 1)).data.length
        = data.length + F.length + 1 := by
      rw [hr2]; simp; omega
    have ht2 : (StdString.resize grow ⟨d1, c1⟩ (data.length + F.length + 1)).data.take
        data.length = data := by
      rw [hr2, List.take_append_of_le_length (by omega), hd1t]
    rw [vsnprintfStore_fits data _ F _ 1 (by rw [hl2]; omega) ht2 (by omega)]
    rw [resize_data_of_ge _ _ _ (by simp)]
    simp only
    rw [List.append_assoc, List.take_append_eq_append_take]
    simp

/-- Witness of `StringFormat_appends`: appending "5-x" to an empty string without
spare capacity. -/
theorem StringFormat_appends_witness :
    (([] : List Nat).length ≤ 0 ∧ (lit "5-x").length < 2147483647) ∧
    (StringFormat (fun n => 2 * n) (vsnprintfOf (lit "5-x")) ⟨[], 0⟩).error = none ∧
    (StringFormat (fun n => 2 * n) (vsnprintfOf (lit "5-x")) ⟨[], 0⟩).output.data
      = lit "5-x" :=
  ⟨by decide,
    StringFormat_appends (fun n => 2 * n) ⟨[], 0⟩ (lit "5-x") (by decide) (by decide)⟩

/-- C13. For a first returned length below `INT_MAX`, `StringFormat` throws exactly
when the first attempt returns a negative length, or the first returned length is at
least the spare capacity and the retry's returned length plus one differs from the
first returned length plus one, the capacity the retry asked for. -/
theorem StringFormat_error_iff (grow : Nat → Nat) (vsnprintf : Formatter) (output : StdString)
    (_hcap : output.data.length ≤ output.capacity)
    (hmax : StringFormat.firstLength vsnprintf output < 2147483647) :
    (StringFormat grow vsnprintf output).error ≠ none ↔
      StringFormat.firstLength vsnprintf output < 0 ∨
      (((output.capacity - output.data.length : Nat) : Int)
          ≤ StringFormat.firstLength vsnprintf output ∧
        StringFormat.retryLength vsnprintf output + 1
          ≠ StringFormat.firstLength vsnprintf output + 1) := by
  unfold StringFormat.retryLength
  unfold StringFormat.firstLength at *
  have hr1 := toInt32_range (vsnprintf 0 (output.capacity - output.data.length)).ret
  simp only [StringFormat]
  generalize toInt32 (vsnprintf 0 (output.capacity - output.data.length)).ret = b1 at *
  by_cases hneg : b1 < 0
  · simp [hneg]
  · have hu : toUInt32 b1 = b1.toNat := by unfold toUInt32; omega
    have hrem : toUInt64 (toInt32 (b1 + 1)) = (b1 + 1).toNat := by
      unfold toUInt64 toInt32; omega
    simp only [hneg, if_false, hu, hrem, false_or]
    by_cases hfit : b1.toNat < output.capacity - output.data.length
    · have : ¬ (((output.capacity - output.data.length : Nat) : Int) ≤ b1) := by omega
      simp [hfit, this]
    · have hge : ((output.capacity - output.data.length : Nat) : Int) ≤ b1 := by omega
      have hr2 := toInt32_range (vsnprintf 1 (b1 + 1).toNat).ret
      generalize toInt32 (vsnprintf 1 (b1 + 1).toNat).ret = b2 at *
      have hchk : toUInt32 (toInt32 (b2 + 1)) ≠ (b1 + 1).toNat ↔ b2 + 1 ≠ b1 + 1 := by
        unfold toUInt32 toInt32
        constructor
        · intro h1 h2; apply h1; omega
        · intro h1 h2; apply h1; omega
      simp only [hfit, if_false, hge, true_and]
      by_cases hc : toUInt32 (toInt32 (b2 + 1)) ≠ (b1 + 1).toNat
      · have := hchk.1 hc
        rw [if_pos hc]
        simp [this]
      · have hne : ¬ (b2 + 1 ≠ b1 + 1) := fun h => hc (hchk.2 h)
        rw [if_neg hc]
        simp only [ne_eq, not_true_eq_false, false_iff]
        exact hne

/-- Witness of `StringFormat_error_iff`: a formatter that returns `-1`. -/
theorem StringFormat_error_iff_witness :
    ((lit "ab").length ≤ 4 ∧
      StringFormat.firstLength (fun _ _ => ⟨-1, []⟩) ⟨lit "ab", 4⟩ < 2147483647) ∧
    ((StringFormat (fun n => n) (fun _ _ => ⟨-1, []⟩) ⟨lit "ab", 4⟩).error ≠ none ↔
      StringFormat.firstLength (fun _ _ => ⟨-1, []⟩) ⟨lit "ab", 4⟩ < 0 ∨
      (((4 - (lit "ab").length : Nat) : Int)
          ≤ StringFormat.firstLength (fun _ _ => ⟨-1, []⟩) ⟨lit "ab", 4⟩ ∧
        StringFormat.retryLength (fun _ _ => ⟨-1, []⟩) ⟨lit "ab", 4⟩ + 1
          ≠ StringFormat.firstLength (fun _ _ => ⟨-1, []⟩) ⟨lit "ab", 4⟩ + 1)) :=
  ⟨by decide,
    StringFormat_error_iff (fun n => n) (fun _ _ => ⟨-1, []⟩) ⟨lit "ab", 4⟩ (by decide)
      (by decide)⟩

/-- C20. When the first formatting attempt returns a negative length, `StringFormat`
throws and leaves `output` with its old characters first and a length equal to its
old capacity; `output` is then equal to its old value exactly when its length was
already its capacity. -/
theorem StringFormat_failure_state (grow : Nat → Nat) (vsnprintf : Formatter)
    (output : StdString) (hcap : output.data.length ≤ output.capacity)
    (hneg : StringFormat.firstLength vsnprintf output < 0) :
    (StringFormat grow vsnprintf output).error = some FormatError.negativeLength ∧
    (StringFormat grow vsnprintf output).output.data.length = output.capacity ∧
    (StringFormat grow vsnprintf output).output.data.take output.data.length = output.data ∧
    ((StringFormat grow vsnprintf output).output.data = output.data ↔
      output.data.length = output.capacity) := by
  unfold StringFormat.firstLength at hneg
  obtain ⟨data, cap⟩ := output
  simp only at hcap hneg
  have hr0 : (StdString.resize grow ⟨data, cap⟩ cap).data
      = data ++ List.replicate (cap - data.length) 0 := resize_data_of_le _ _ _ hcap
  have hlen0 : (StdString.resize grow ⟨data, cap⟩ cap).data.length = cap := by
    rw [hr0]; simp; omega
  have htake0 : (StdString.resize grow ⟨data, cap⟩ cap).data.take data.length = data := by
    rw [hr0]; simp
  have hd1l := vsnprintfStore_length
    (StdString.resize grow ⟨data, cap⟩ cap).data data.length (cap - data.length)
    (vsnprintf 0 (cap - data.length)) (by rw [hlen0]; omega)
  have hd1t := vsnprintfStore_take
    (StdString.resize grow ⟨data, cap⟩ cap).data data.length (cap - data.length)
    (vsnprintf 0 (cap - data.length)) (by rw [hlen0]; omega)
  rw [hlen0] at hd1l
  rw [htake0] at hd1t
  simp only [StringFormat, hneg, if_true]
  refine ⟨trivial, hd1l, hd1t, ?_, ?_⟩
  · intro h
    rw [h] at hd1l
    exact hd1l
  · intro h
    have := List.take_of_length_le (Nat.le_of_eq (hd1l.trans h.symm))
    rw [hd1t] at this
    exact this.symm

/-- Witness of `StringFormat_failure_state`: "ab" with capacity 4 and a formatter
that returns `-1`. -/
theorem StringFormat_failure_state_witness :
    ((lit "ab").length ≤ 4 ∧
      StringFormat.firstLength (fun _ _ => ⟨-1, []⟩) ⟨lit "ab", 4⟩ < 0) ∧
    (StringFormat (fun n => n) (fun _ _ => ⟨-1, []⟩) ⟨lit "ab", 4⟩).error
      = some FormatError.negativeLength ∧
    (StringFormat (fun n => n) (fun _ _ => ⟨-1, []⟩) ⟨lit "ab", 4⟩).output.data.length = 4 :=
  have h := StringFormat_failure_state (fun n => n) (fun _ _ => ⟨-1, []⟩) ⟨lit "ab", 4⟩
    (by decide) (by decide)
  ⟨by decide, h.1, h.2.1⟩

/-! ## Building a string of any length -/

theorem vsnprintfStore_fits_zero (buf F : List Nat) (n k : Nat) (hbuf : n ≤ buf.length)
    (hF : F.length < n) :
    vsnprintfStore buf 0 n (vsnprintfOf F k n) = F ++ 0 :: buf.drop (F.length + 1) := by
  have := vsnprintfStore_fits [] buf F n k (by simpa using hbuf) (by simp) hF
  simpa using this

theorem take_length_succ_append (F rest : List Nat) (x : Nat) :
    (F ++ x :: rest).take (F.length + 1) = F ++ [x] := by
  induction F with
  | nil => simp
  | cons a F ih => simpa using ih

/-- C14. For a formatted text `F` shorter than `INT_MAX` from a conforming
`vsnprintf`, whatever `*ret` held and whatever the new buffers hold at first,
`MakeAnyLenString` exits its loop (a fuel of 3 is enough) after at most two
formatting attempts, returns `|F|`, and leaves `*ret` on a new buffer of more than
`|F|` bytes that starts with the characters of `F` and a terminator. -/
theorem MakeAnyLenString_spec (fuel : Nat) (F : List Nat) (fresh : Nat → Nat → Nat)
    (ret : Option (List Nat)) (hfuel : 3 ≤ fuel) (hF : F.length < 2147483647) :
    ∃ buf buf_len attempts,
      MakeAnyLenString fuel (vsnprintfOf F) fresh ret
        = some { ret := some buf, chars := F.length, buf_len := buf_len,
                 attempts := attempts } ∧
      attempts ≤ 2 ∧
      buf.take (F.length + 1) = F ++ [0] ∧
      F.length < buf.length ∧ (buf.length : Int) = buf_len := by
  obtain ⟨f, rfl⟩ : ∃ f, fuel = f + 3 := ⟨fuel - 3, by omega⟩
  have hret : ∀ k n, (vsnprintfOf F k n).ret = (F.length : Int) := fun _ _ => rfl
  have hb : toInt32 (F.length : Int) = F.length := toInt32_natCast _ (by omega)
  have h256 : toInt32 (128 * 2) = 256 := by decide
  have hne : ¬ ((F.length : Int) = -1) := by omega
  simp only [MakeAnyLenString]
  rw [MakeAnyLenStringLoop]
  simp only [true_or, if_true, h256, hret, hb]
  rw [MakeAnyLenStringLoop]
  by_cases hbig : (F.length : Int) ≥ 256
  · have hb1 : toInt32 ((F.length : Int) + 1) = F.length + 1 :=
      toInt32_of_small _ (by omega) (by omega)
    have hnat : ((F.length : Int) + 1).toNat = F.length + 1 := by omega
    simp only [hne, hbig, or_true, if_true, if_false, hb1, hnat, hret, hb]
    rw [MakeAnyLenStringLoop]
    have hexit : ¬ ((F.length : Int) = -1 ∨ (F.length : Int) ≥ F.length + 1) := by omega
    rw [if_neg hexit]
    rw [vsnprintfStore_fits_zero _ F _ 1 (by rw [newCharArray_length]) (by omega)]
    refine ⟨_, _, _, rfl, le_refl _, take_length_succ_append _ _ _, ?_, ?_⟩
    · simp
    · simp [newCharArray_length]
  · have hexit : ¬ ((F.length : Int) = -1 ∨ (F.length : Int) ≥ 256) := by omega
    rw [if_neg hexit]
    have hnat : (256 : Int).toNat = 256 := rfl
    rw [hnat, vsnprintfStore_fits_zero _ F _ 0 (by rw [newCharArray_length]) (by omega)]
    refine ⟨_, _, _, rfl, by omega, take_length_succ_append _ _ _, ?_, ?_⟩
    · simp
    · simp [newCharArray_length]; omega

/-- Witness of `MakeAnyLenString_spec`: a text of 500 characters. -/
theorem MakeAnyLenString_spec_witness :
    (3 ≤ 3 ∧ (List.replicate 500 97).length < 2147483647) ∧
    ∃ buf buf_len attempts,
      MakeAnyLenString 3 (vsnprintfOf (List.replicate 500 97)) (fun _ _ => 9) none
        = some { ret := some buf, chars := (List.replicate 500 97).length,
                 buf_len := buf_len, attempts := attempts } ∧
      attempts ≤ 2 ∧
      buf.take ((List.replicate 500 97).length + 1) = List.replicate 500 97 ++ [0] ∧
      (List.replicate 500 97).length < buf.length ∧ (buf.length : Int) = buf_len :=
  ⟨⟨by decide, lt_of_eq_of_lt (List.length_replicate _ _) (by decide)⟩,
    MakeAnyLenString_spec 3 (List.replicate 500 97) (fun _ _ => 9) none (by decide)
      (lt_of_eq_of_lt (List.length_replicate _ _) (by decide))⟩

/-! ## Appending to a tracked buffer -/

theorem vsnprintfStore_fits_at (buf F : List Nat) (off n k : Nat)
    (hbuf : off + n ≤ buf.length) (hF : F.length < n) :
    vsnprintfStore buf off n (vsnprintfOf F k n)
      = buf.take off ++ F ++ 0 :: buf.drop (off + F.length + 1) := by
  have hl : (buf.take off).length = off := by rw [List.length_take]; omega
  have := vsnprintfStore_fits (buf.take off) buf F n k (by rw [hl]; exact hbuf)
    (by rw [hl]) hF
  rw [hl] at this
  exact this

theorem copyForward_spec (buf : List Nat) (oldret : Option (List Nat)) (L : Nat)
    (hbuf : L ≤ buf.length) (hold : ∀ old, oldret = some old → L ≤ old.length)
    (hnone : oldret = none → L = 0) :
    (copyForward buf oldret L).length = buf.length ∧
    (copyForward buf oldret L).take L = (oldret.getD []).take L := by
  cases oldret with
  | none =>
    have := hnone rfl
    subst this
    simp [copyForward]
  | some old =>
    have hlo := hold old rfl
    by_cases h0 : L = 0
    · subst h0
      simp [copyForward]
    · have hlen : (old.take L).length = L := by rw [List.length_take]; omega
      have hw := writeAt_eq buf 0 (old.take L) (by rw [hlen]; omega)
      simp only [copyForward, h0, ne_eq, not_false_eq_true, if_true, memcpy, Option.getD_some]
      rw [hw, hlen]
      constructor
      · simp only [List.take_zero, List.nil_append, Nat.zero_add, List.length_append,
          List.length_drop, hlen]
        omega
      · simp only [List.take_zero, List.nil_append, Nat.zero_add]
        rw [List.take_append_of_le_length (by rw [hlen]), List.take_take, Nat.min_self]

theorem toUInt32_natCast (a : Nat) (h : a < 4294967296) : toUInt32 (a : Int) = a := by
  unfold toUInt32
  omega

theorem toUInt32_natCast_sub (a b : Nat) (hb : b ≤ a) (h : a < 4294967296) :
    toUInt32 ((a : Int) - b) = a - b := by
  unfold toUInt32
  omega

theorem toUInt32_natCast_add (a b : Nat) (h : a + b < 4294967296) :
    toUInt32 ((a : Int) + b) = a + b := by
  unfold toUInt32
  omega

/-- The run of the loop of `AppendAnyLenString` with a conforming formatter: one
pass when the text fits the capacity enlarged by 256, two passes otherwise. -/
theorem AppendAnyLenStringLoop_run (fuel : Nat) (F : List Nat) (fresh : Nat → Nat → Nat)
    (ret : Option (List Nat)) (B L : Nat) (hfuel : 3 ≤ fuel)
    (hold : ∀ old, ret = some old → L ≤ old.length) (hnone : ret = none → L = 0)
    (hL : L ≤ B)
    (hcap : B + 256 + F.length + 25 < 4294967296)
    (hspare : B + 256 + F.length + 25 - L < 2147483648) :
    ∃ tail,
      AppendAnyLenStringLoop (vsnprintfOf F) fresh fuel 0 ret B L (-1)
        = some { ret := some ((ret.getD []).take L ++ F ++ 0 :: tail),
                 bufsize := if F.length < B + 256 - L then B + 256
                            else B + 256 + F.length + 25,
                 strlen := L + F.length, returned := L + F.length } ∧
      ((ret.getD []).take L ++ F ++ 0 :: tail).length
        = if F.length < B + 256 - L then B + 256 else B + 256 + F.length + 25 := by
  obtain ⟨f, rfl⟩ : ∃ f, fuel = f + 3 := ⟨fuel - 3, by omega⟩
  have hsp : B + 256 + F.length + 25 < 2147483648 + L := by
    clear * - hL hspare
    omega
  clear hspare hfuel
  have hret : ∀ k n, (vsnprintfOf F k n).ret = (F.length : Int) := fun _ _ => rfl
  have hFs : F.length < 2147483648 := by
    clear * - hL hsp
    omega
  have hb : toInt32 (F.length : Int) = F.length := toInt32_natCast _ hFs
  have hB1 : toUInt32 ((B : Int) + 256) = B + 256 :=
    toUInt32_natCast_add B 256 (by clear * - hcap; omega)
  have hn1 : toUInt32 (((B + 256 : Nat) : Int) - L) = B + 256 - L :=
    toUInt32_natCast_sub _ _ (by clear * - hL; omega) (by clear * - hcap; omega)
  have hs1 : toInt32 ((B + 256 - L : Nat) : Int) = ((B + 256 - L : Nat) : Int) :=
    toInt32_natCast _ (by clear * - hL hsp; omega)
  have hne : ¬ ((F.length : Int) = -1) := by
    clear * -
    omega
  have hsum : toUInt32 ((L : Int) + F.length) = L + F.length :=
    toUInt32_natCast_add L F.length (by clear * - hL hcap; omega)
  have hPlen : ((ret.getD []).take L).length = L := by
    cases ret with
    | none => simp [hnone rfl]
    | some old => simp [hold old rfl]
  rw [AppendAnyLenStringLoop]
  simp only [true_or, if_true, hB1, hn1, hret, hb]
  obtain ⟨hc1l, hc1t⟩ := copyForward_spec (newCharArray (B + 256) (fresh 0)) ret L
    (by rw [newCharArray_length]; clear * - hL; omega) hold hnone
  rw [newCharArray_length] at hc1l
  generalize copyForward (newCharArray (B + 256) (fresh 0)) ret L = c1 at hc1l hc1t
  rw [AppendAnyLenStringLoop]
  simp only [hn1, hs1]
  have hroom1 : L + (B + 256 - L) ≤ c1.length := by
    clear * - hL hc1l
    omega
  by_cases hfit : F.length < B + 256 - L
  · have hexit : ¬ ((F.length : Int) = -1 ∨ (F.length : Int) ≥ ((B + 256 - L : Nat) : Int)) := by
      clear * - hfit
      omega
    rw [if_neg hexit, if_pos hfit, hsum]
    rw [vsnprintfStore_fits_at c1 F L _ 0 hroom1 hfit, hc1t]
    refine ⟨_, rfl, ?_⟩
    simp only [List.length_append, List.length_cons, List.length_drop, hPlen, hc1l]
    clear * - hfit hL
    omega
  · have hgo : (F.length : Int) = -1 ∨ (F.length : Int) ≥ ((B + 256 - L : Nat) : Int) := by
      right
      clear * - hfit
      omega
    have h25 : toInt32 ((F.length : Int) + 25) = F.length + 25 :=
      toInt32_of_small _ (by clear * -; omega) (by clear * - hL hsp; omega)
    have hB2 : toUInt32 (((B + 256 : Nat) : Int) + ((F.length : Int) + 25))
        = B + 256 + F.length + 25 := by
      have e : ((B + 256 : Nat) : Int) + ((F.length : Int) + 25)
          = ((B + 256 + F.length + 25 : Nat) : Int) := by
        push_cast
        ring
      rw [e]
      exact toUInt32_natCast _ hcap
    have hn2 : toUInt32 (((B + 256 + F.length + 25 : Nat) : Int) - L)
        = B + 256 + F.length + 25 - L :=
      toUInt32_natCast_sub _ _ (by clear * - hL; omega) hcap
    have hs2 : toInt32 ((B + 256 + F.length + 25 - L : Nat) : Int)
        = ((B + 256 + F.length + 25 - L : Nat) : Int) :=
      toInt32_natCast _ (by clear * - hL hsp; omega)
    rw [if_pos hgo, if_neg hfit]
    simp only [hne, if_false, h25, hB2, hn2, hret, hb]
    have hs1l := vsnprintfStore_length c1 L (B + 256 - L) (vsnprintfOf F 0 (B + 256 - L))
      hroom1
    have hs1t := vsnprintfStore_take c1 L (B + 256 - L) (vsnprintfOf F 0 (B + 256 - L))
      hroom1
    rw [hc1t] at hs1t
    rw [hc1l] at hs1l
    generalize vsnprintfStore c1 L (B + 256 - L) (vsnprintfOf F 0 (B + 256 - L)) = d1
      at hs1l hs1t
    obtain ⟨hc2l, hc2t⟩ := copyForward_spec
      (newCharArray (B + 256 + F.length + 25) (fresh 1)) (some d1) L
      (by rw [newCharArray_length]; clear * - hL; omega)
      (by intro old ho; cases ho; clear * - hL hs1l; omega)
      (by intro h; cases h)
    rw [newCharArray_length] at hc2l
    simp only [Option.getD_some, hs1t] at hc2t
    generalize copyForward (newCharArray (B + 256 + F.length + 25) (fresh 1)) (some d1) L
      = c2 at hc2l hc2t
    rw [AppendAnyLenStringLoop]
    simp only [hn2, hs2]
    have hexit : ¬ ((F.length : Int) = -1 ∨
        (F.length : Int) ≥ ((B + 256 + F.length + 25 - L : Nat) : Int)) := by
      clear * - hL
      omega
    have hroom2 : L + (B + 256 + F.length + 25 - L) ≤ c2.length := by
      clear * - hL hc2l
      omega
    have hfit2 : F.length < B + 256 + F.length + 25 - L := by
      clear * - hL
      omega
    rw [if_neg hexit, hsum]
    rw [vsnprintfStore_fits_at c2 F L _ 1 hroom2 hfit2, hc2t]
    refine ⟨_, rfl, ?_⟩
    simp only [List.length_append, List.length_cons, List.length_drop, hPlen, hc2l]
    clear * - hL
    omega

/-- C15. For a buffer `*ret` that is null or holds `*strlen ≤ *bufsize` bytes, a
formatted text `F` from a conforming `vsnprintf`, and a capacity that stays in range
(no `uint32` overflow, spare capacity below `2^31`), `AppendAnyLenString` exits its
loop (a fuel of 3 is enough) with `*strlen = L + |F|`, `L` the old length (`0` for a
null `*ret`), returns that length, leaves `*ret` on a new buffer holding the old
first `L` bytes followed by `F` and a terminator, and the new length is below the new
`*bufsize`, the size of that buffer. -/
theorem AppendAnyLenString_spec (fuel : Nat) (F : List Nat) (fresh : Nat → Nat → Nat)
    (ret : Option (List Nat)) (bufsize len : Nat) (hfuel : 3 ≤ fuel)
    (hold : ∀ old, ret = some old → len ≤ bufsize ∧ len ≤ old.length)
    (hcap : entryBufsize bufsize + 256 + F.length + 25 < 4294967296)
    (hspare : entryBufsize bufsize + 256 + F.length + 25 - entryStrlen ret len
      < 2147483648) :
    ∃ buf newsize,
      AppendAnyLenString fuel (vsnprintfOf F) fresh ret bufsize len
        = some { ret := some buf, bufsize := newsize,
                 strlen := entryStrlen ret len + F.length,
                 returned := entryStrlen ret len + F.length } ∧
      buf.take (entryStrlen ret len + F.length + 1)
        = (ret.getD []).take (entryStrlen ret len) ++ F ++ [0] ∧
      entryStrlen ret len + F.length < newsize ∧
      buf.length = newsize := by
  have hold2 : ∀ old, ret = some old → entryStrlen ret len ≤ old.length := by
    intro old ho
    subst ho
    simpa [entryStrlen] using (hold old rfl).2
  have hnone : ret = none → entryStrlen ret len = 0 := by
    intro h
    subst h
    simp [entryStrlen]
  have hL : entryStrlen ret len ≤ entryBufsize bufsize := by
    cases ret with
    | none => simp [entryStrlen]
    | some old =>
      have := (hold old rfl).1
      simp only [entryStrlen, entryBufsize, Option.isNone_some, Bool.false_eq_true, if_false]
      split_ifs <;> omega
  obtain ⟨tail, hrun, hlen⟩ := AppendAnyLenStringLoop_run fuel F fresh ret
    (entryBufsize bufsize) (entryStrlen ret len) hfuel hold2 hnone hL hcap hspare
  have hPlen : ((ret.getD []).take (entryStrlen ret len)).length = entryStrlen ret len := by
    cases ret with
    | none => simp [entryStrlen]
    | some old => simpa using hold2 old rfl
  refine ⟨_, _, hrun, ?_, ?_, hlen⟩
  · have := take_length_succ_append
      ((ret.getD []).take (entryStrlen ret len) ++ F) tail 0
    rw [List.length_append, hPlen] at this
    exact this
  · split_ifs <;> omega

/-- Witness of `AppendAnyLenString_spec`: appending "hi" to a 4-byte buffer holding
"ab". -/
theorem AppendAnyLenString_spec_witness :
    (3 ≤ 3 ∧ (∀ old, some (lit "ab" ++ [0, 1]) = some old → 2 ≤ 4 ∧ 2 ≤ old.length) ∧
      entryBufsize 4 + 256 + (lit "hi").length + 25 < 4294967296 ∧
      entryBufsize 4 + 256 + (lit "hi").length + 25
        - entryStrlen (some (lit "ab" ++ [0, 1])) 2 < 2147483648) ∧
    ∃ buf newsize,
      AppendAnyLenString 3 (vsnprintfOf (lit "hi")) (fun _ _ => 9)
          (some (lit "ab" ++ [0, 1])) 4 2
        = some { ret := some buf, bufsize := newsize,
                 strlen := entryStrlen (some (lit "ab" ++ [0, 1])) 2 + (lit "hi").length,
                 returned := entryStrlen (some (lit "ab" ++ [0, 1])) 2
                   + (lit "hi").length } ∧
      buf.take (entryStrlen (some (lit "ab" ++ [0, 1])) 2 + (lit "hi").length + 1)
        = ((some (lit "ab" ++ [0, 1])).getD []).take
            (entryStrlen (some (lit "ab" ++ [0, 1])) 2) ++ lit "hi" ++ [0] ∧
      entryStrlen (some (lit "ab" ++ [0, 1])) 2 + (lit "hi").length < newsize ∧
      buf.length = newsize :=
  ⟨⟨by decide, by intro old h; cases h; decide, by decide, by decide⟩,
    AppendAnyLenString_spec 3 (lit "hi") (fun _ _ => 9) (some (lit "ab" ++ [0, 1])) 4 2
      (by decide) (by intro old h; cases h; decide) (by decide) (by decide)⟩

/-- C16, as the code behaves: a text of 1 character that fits the spare capacity of
2 bytes on entry (`*bufsize = 4`, `*strlen = 2`) still grows `*bufsize` to 260, and a
text of 10 characters that does not fit grows it by 256 only, not by the overflow
plus 25. -/
theorem AppendAnyLenString_grows_when_fitting :
    ((lit "c").length < 4 - 2 ∧
      (AppendAnyLenString 3 (vsnprintfOf (lit "c")) (fun _ _ => 9)
        (some (lit "ab" ++ [0, 1])) 4 2).map (fun r => r.bufsize) = some 260 ∧
      (260 : Nat) ≠ 4) ∧
    (¬ (lit "0123456789").length < 4 - 2 ∧
      (AppendAnyLenString 3 (vsnprintfOf (lit "0123456789")) (fun _ _ => 9)
        (some (lit "ab" ++ [0, 1])) 4 2).map (fun r => r.bufsize) = some 260 ∧
      (260 : Nat) ≠ 4 + ((lit "0123456789").length - (4 - 2)) + 25) := by
  decide

/-- C16, amended. Under the hypotheses of C15, `AppendAnyLenString` grows `*bufsize`
on every call, from its value on entry (256 when it was 0): by 256 when the text fits
the spare capacity so enlarged, and by `256 + |F| + 25` otherwise. -/
theorem AppendAnyLenString_bufsize (fuel : Nat) (F : List Nat) (fresh : Nat → Nat → Nat)
    (ret : Option (List Nat)) (bufsize len : Nat) (hfuel : 3 ≤ fuel)
    (hold : ∀ old, ret = some old → len ≤ bufsize ∧ len ≤ old.length)
    (hcap : entryBufsize bufsize + 256 + F.length + 25 < 4294967296)
    (hspare : entryBufsize bufsize + 256 + F.length + 25 - entryStrlen ret len
      < 2147483648) :
    (AppendAnyLenString fuel (vsnprintfOf F) fresh ret bufsize len).map (fun r => r.bufsize)
      = some (if F.length < entryBufsize bufsize + 256 - entryStrlen ret len
              then entryBufsize bufsize + 256
              else entryBufsize bufsize + 256 + F.length + 25) := by
  have hold2 : ∀ old, ret = some old → entryStrlen ret len ≤ old.length := by
    intro old ho
    subst ho
    simpa [entryStrlen] using (hold old rfl).2
  have hnone : ret = none → entryStrlen ret len = 0 := by
    intro h
    subst h
    simp [entryStrlen]
  have hL : entryStrlen ret len ≤ entryBufsize bufsize := by
    cases ret with
    | none => simp [entryStrlen]
    | some old =>
      have := (hold old rfl).1
      simp only [entryStrlen, entryBufsize, Option.isNone_some, Bool.false_eq_true, if_false]
      split_ifs <;> omega
  obtain ⟨tail, hrun, _⟩ := AppendAnyLenStringLoop_run fuel F fresh ret
    (entryBufsize bufsize) (entryStrlen ret len) hfuel hold2 hnone hL hcap hspare
  simp only [AppendAnyLenString, hrun, Option.map_some']

/-- Witness of `AppendAnyLenString_bufsize`: appending "hi" to a 4-byte buffer holding
"ab" leaves `*bufsize = 260`. -/
theorem AppendAnyLenString_bufsize_witness :
    (3 ≤ 3 ∧ (∀ old, some (lit "ab" ++ [0, 1]) = some old → 2 ≤ 4 ∧ 2 ≤ old.length) ∧
      entryBufsize 4 + 256 + (lit "hi").length + 25 < 4294967296 ∧
      entryBufsize 4 + 256 + (lit "hi").length + 25
        - entryStrlen (some (lit "ab" ++ [0, 1])) 2 < 2147483648) ∧
    (AppendAnyLenString 3 (vsnprintfOf (lit "hi")) (fun _ _ => 9)
      (some (lit "ab" ++ [0, 1])) 4 2).map (fun r => r.bufsize) = some 260 :=
  ⟨⟨by decide, by intro old h; cases h; decide, by decide, by decide⟩,
    (AppendAnyLenString_bufsize 3 (lit "hi") (fun _ _ => 9) (some (lit "ab" ++ [0, 1])) 4 2
      (by decide) (by intro old h; cases h; decide) (by decide) (by decide)).trans
      (by decide)⟩

/-! ## Case conversion -/

theorem toupper_ne_zero (c : Nat) (h : c ≠ 0) : toupper c ≠ 0 := by
  unfold toupper
  split_ifs <;> omega

theorem tolower_ne_zero (c : Nat) (h : c ≠ 0) : tolower c ≠ 0 :=
  fun h0 => h ((tolower_eq_zero_iff c).1 h0)

theorem writeByte_append (pre rest : List Nat) (r v : Nat) :
    writeByte (pre ++ r :: rest) pre.length v = some (pre ++ v :: rest) := by
  have hlt : pre.length < (pre ++ r :: rest).length := by simp
  simp [writeByte, hlt, set_length_append]

/-- The loop of `MakeUpperString` from the index `|pre|` of the target `pre ++ rest`:
with room for what is left of the source and a terminator, it stores the upper-case
text and the terminator, every store inside the buffer. -/
theorem MakeUpperStringLoop_spec (source pre rest : List Nat)
    (hroom : (cstr source).length < rest.length) :
    MakeUpperStringLoop source (pre ++ rest) pre.length
      = some (pre ++ (cstr source).map toupper
          ++ 0 :: rest.drop ((cstr source).length + 1)) := by
  induction source generalizing pre rest with
  | nil =>
    cases rest with
    | nil => simp at hroom
    | cons r rest => simp [MakeUpperStringLoop, cstr, writeByte_append]
  | cons c cs ih =>
    cases rest with
    | nil => simp at hroom
    | cons r rest =>
      by_cases hc : c = 0
      · simp [MakeUpperStringLoop, cstr, hc, writeByte_append]
      · have hroom2 : (cstr cs).length < rest.length := by
          simpa [cstr, hc] using hroom
        have := ih (pre ++ [toupper c]) rest hroom2
        simp only [List.length_append, List.length_singleton, List.append_assoc,
          List.singleton_append] at this
        simp only [MakeUpperStringLoop, hc, if_false, writeByte_append, this, cstr,
          List.map_cons, List.length_cons, List.drop_succ_cons, List.append_assoc,
          List.cons_append]

/-- The loop of `MakeLowerString`, as `MakeUpperStringLoop_spec`. -/
theorem MakeLowerStringLoop_spec (source pre rest : List Nat)
    (hroom : (cstr source).length < rest.length) :
    MakeLowerStringLoop source (pre ++ rest) pre.length
      = some (pre ++ (cstr source).map tolower
          ++ 0 :: rest.drop ((cstr source).length + 1)) := by
  induction source generalizing pre rest with
  | nil =>
    cases rest with
    | nil => simp at hroom
    | cons r rest => simp [MakeLowerStringLoop, cstr, writeByte_append]
  | cons c cs ih =>
    cases rest with
    | nil => simp at hroom
    | cons r rest =>
      by_cases hc : c = 0
      · simp [MakeLowerStringLoop, cstr, hc, writeByte_append]
      · have hroom2 : (cstr cs).length < rest.length := by
          simpa [cstr, hc] using hroom
        have := ih (pre ++ [tolower c]) rest hroom2
        simp only [List.length_append, List.length_singleton, List.append_assoc,
          List.singleton_append] at this
        simp only [MakeLowerStringLoop, hc, if_false, writeByte_append, this, cstr,
          List.map_cons, List.length_cons, List.drop_succ_cons, List.append_assoc,
          List.cons_append]

theorem cstr_map_append_zero (f : Nat → Nat) (hf : ∀ c, c ≠ 0 → f c ≠ 0)
    (s rest : List Nat) : cstr ((cstr s).map f ++ 0 :: rest) = (cstr s).map f := by
  apply cstr_append_zero
  intro c hc
  obtain ⟨a, ha, rfl⟩ := List.mem_map.1 hc
  exact hf a (cstr_ne_zero s a ha)

/-- C18, as the code behaves: for a null source the single-argument forms return the
null pointer, not a pointer to an empty string. -/
theorem MakeUpperStringStatic_null_source :
    (MakeUpperStringStatic 1 (List.replicate 128 7) ⟨0, []⟩).ret = 0 ∧
    (MakeLowerStringStatic 1 (List.replicate 128 7) ⟨0, []⟩).ret = 0 ∧
    ¬ ((MakeUpperStringStatic 1 (List.replicate 128 7) ⟨0, []⟩).ret ≠ 0 ∧
       (MakeLowerStringStatic 1 (List.replicate 128 7) ⟨0, []⟩).ret ≠ 0) := by
  refine ⟨rfl, rfl, ?_⟩
  intro h
  exact h.1 rfl

/-- C18, amended. For a null source, the two-buffer forms of `MakeUpperString` and
`MakeLowerString` with a non-null target of at least one byte store `target[0] = 0`
and nothing else, so that `target` holds the empty string; the single-argument forms
return the null pointer and leave their static buffer as it was. -/
theorem MakeUpperLowerString_null_source (source target : CharPtr) (strAddr : Nat)
    (str : List Nat) (hs : source.addr = 0) :
    (target.addr ≠ 0 → 0 < target.bytes.length →
      MakeUpperString source target = some (0 :: target.bytes.tail) ∧
      MakeLowerString source target = some (0 :: target.bytes.tail) ∧
      cstr (0 :: target.bytes.tail) = []) ∧
    MakeUpperStringStatic strAddr str source = { ret := 0, str := some str } ∧
    MakeLowerStringStatic strAddr str source = { ret := 0, str := some str } := by
  refine ⟨?_, by simp [MakeUpperStringStatic, hs], by simp [MakeLowerStringStatic, hs]⟩
  intro ht hlen
  have hw : writeByte target.bytes 0 0 = some (0 :: target.bytes.tail) := by
    cases hb : target.bytes with
    | nil => rw [hb] at hlen; simp at hlen
    | cons b bs => simp [writeByte]
  refine ⟨?_, ?_, by simp [cstr]⟩
  · simp [MakeUpperString, hs, ht, hw]
  · simp [MakeLowerString, hs, ht, hw]

/-- Witness of `MakeUpperLowerString_null_source`: a null source and a target of
three bytes. -/
theorem MakeUpperLowerString_null_source_witness :
    ((0 : Nat) = 0 ∧ (2 : Nat) ≠ 0 ∧ 0 < [7, 8, 9].length) ∧
    MakeUpperString ⟨0, []⟩ ⟨2, [7, 8, 9]⟩ = some [0, 8, 9] ∧
    MakeLowerString ⟨0, []⟩ ⟨2, [7, 8, 9]⟩ = some [0, 8, 9] ∧
    MakeUpperStringStatic 1 (List.replicate 128 7) ⟨0, []⟩
      = { ret := 0, str := some (List.replicate 128 7) } :=
  have h := MakeUpperLowerString_null_source ⟨0, []⟩ ⟨2, [7, 8, 9]⟩ 1
    (List.replicate 128 7) rfl
  ⟨by decide, (h.1 (by decide) (by decide)).1, (h.1 (by decide) (by decide)).2.1, h.2.1⟩

/-- C19. For a non-null ASCII source and a non-null target with room for
`strlen(source) + 1` bytes, `MakeUpperString(source, target)` stores in `target`,
every store inside the buffer, `toupper` of each character of the source followed by
a terminator, and `MakeLowerString` does the same with `tolower`; when
`strlen(source) ≤ 127`, the single-argument forms return their 128-byte static
buffer, which then holds the same text, no store falling outside of it. -/
theorem MakeUpperLowerString_spec (source target : CharPtr) (strAddr : Nat)
    (str : List Nat) (hs : source.addr ≠ 0) (ht : target.addr ≠ 0)
    (_hascii : ∀ c ∈ cstr source.bytes, c < 128)
    (hroom : strlen source.bytes + 1 ≤ target.bytes.length) :
    (MakeUpperString source target
        = some ((cstr source.bytes).map toupper
            ++ 0 :: target.bytes.drop (strlen source.bytes + 1)) ∧
      cstr ((cstr source.bytes).map toupper
            ++ 0 :: target.bytes.drop (strlen source.bytes + 1))
        = (cstr source.bytes).map toupper ∧
      MakeLowerString source target
        = some ((cstr source.bytes).map tolower
            ++ 0 :: target.bytes.drop (strlen source.bytes + 1)) ∧
      cstr ((cstr source.bytes).map tolower
            ++ 0 :: target.bytes.drop (strlen source.bytes + 1))
        = (cstr source.bytes).map tolower) ∧
    (strlen source.bytes ≤ 127 → str.length = 128 → strAddr ≠ 0 →
      MakeUpperStringStatic strAddr str source
        = { ret := strAddr,
            str := some ((cstr source.bytes).map toupper
              ++ 0 :: str.drop (strlen source.bytes + 1)) } ∧
      MakeLowerStringStatic strAddr str source
        = { ret := strAddr,
            str := some ((cstr source.bytes).map tolower
              ++ 0 :: str.drop (strlen source.bytes + 1)) } ∧
      ((cstr source.bytes).map toupper ++ 0 :: str.drop (strlen source.bytes + 1)).length
        = 128 ∧
      ((cstr source.bytes).map tolower ++ 0 :: str.drop (strlen source.bytes + 1)).length
        = 128) := by
  have hlen := strlen_eq_length_cstr source.bytes
  have hup : ∀ t : List Nat, strlen source.bytes + 1 ≤ t.length →
      MakeUpperStringLoop source.bytes t 0
        = some ((cstr source.bytes).map toupper ++ 0 :: t.drop (strlen source.bytes + 1)) := by
    intro t h
    have := MakeUpperStringLoop_spec source.bytes [] t (by omega)
    simpa [hlen] using this
  have hlo : ∀ t : List Nat, strlen source.bytes + 1 ≤ t.length →
      MakeLowerStringLoop source.bytes t 0
        = some ((cstr source.bytes).map tolower ++ 0 :: t.drop (strlen source.bytes + 1)) := by
    intro t h
    have := MakeLowerStringLoop_spec source.bytes [] t (by omega)
    simpa [hlen] using this
  refine ⟨⟨?_, cstr_map_append_zero toupper toupper_ne_zero _ _, ?_,
    cstr_map_append_zero tolower tolower_ne_zero _ _⟩, ?_⟩
  · simp [MakeUpperString, hs, ht, hup _ hroom]
  · simp [MakeLowerString, hs, ht, hlo _ hroom]
  · intro h127 h128 hstr
    refine ⟨?_, ?_, ?_, ?_⟩
    · simp [MakeUpperStringStatic, MakeUpperString, hs, hstr, hup str (by omega)]
    · simp [MakeLowerStringStatic, MakeLowerString, hs, hstr, hlo str (by omega)]
    · simp only [List.length_append, List.length_map, List.length_cons, List.length_drop,
        ← hlen]
      omega
    · simp only [List.length_append, List.length_map, List.length_cons, List.length_drop,
        ← hlen]
      omega

/-- Witness of `MakeUpperLowerString_spec`: "aB3z" into a 6-byte target. -/
theorem MakeUpperLowerString_spec_witness :
    ((1 : Nat) ≠ 0 ∧ (2 : Nat) ≠ 0 ∧ (∀ c ∈ cstr (lit "aB3z" ++ [0]), c < 128) ∧
      strlen (lit "aB3z" ++ [0]) + 1 ≤ [7, 7, 7, 7, 7, 7].length) ∧
    MakeUpperString ⟨1, lit "aB3z" ++ [0]⟩ ⟨2, [7, 7, 7, 7, 7, 7]⟩
      = some (lit "AB3Z" ++ [0, 7]) ∧
    MakeLowerString ⟨1, lit "aB3z" ++ [0]⟩ ⟨2, [7, 7, 7, 7, 7, 7]⟩
      = some (lit "ab3z" ++ [0, 7]) :=
  have h := MakeUpperLowerString_spec ⟨1, lit "aB3z" ++ [0]⟩ ⟨2, [7, 7, 7, 7, 7, 7]⟩ 3
    (List.replicate 128 0) (by decide) (by decide) (by decide) (by decide)
  ⟨by decide, h.1.1.trans (by decide), h.1.2.2.1.trans (by decide)⟩

end StringUtil
